import Mathlib

/-!
Verification of the ngm harvest engine specification

A shallow embedding, in Lean 4, of the parts of the `ngm` court-record
harvester that the specification's testable claims are about:

* `ngm/utils/normalizer.py` — the four text-normalizer transforms,
  modelled character-exactly on `List Char` (Python strings are modelled
  as lists of unicode characters);
* `ngm/utils/db_helpers.py` — `convert_bs_to_ad`, with the external
  `nepali.datetime.nepalidate` library abstracted as an `Option`-valued
  conversion oracle (the library raises on invalid dates; `Option.none`
  models the raise);
* the spider control flow of `district_court_cases.py`,
  `supreme_court_cases.py`, `high_court_cases.py`, and the two
  `*_case_enrichment.py` spiders.  The BeautifulSoup HTML queries that a
  spider performs on a response are modelled by giving the response type
  one field per query result (a banner-match boolean, an optional table,
  a list of row-extraction results); everything downstream of those
  queries — branch structure, checkpoint writes, file writes, database
  writes — is translated statement by statement.

Python regular-expression substitutions are modelled as structurally
recursive scans that reproduce `re.sub`'s leftmost, non-overlapping,
resume-after-match semantics for the three concrete patterns involved.
-/

namespace Ngm

/-! ## Python string primitives -/

/-- The double-quote character (written by code point to keep character
literals unambiguous). -/
def quoteD : Char := Char.ofNat 34

/-- The single-quote character. -/
def quoteS : Char := Char.ofNat 39

/-- Python's whitespace class for `str`: the set matched by `\s` in a
unicode `re` pattern and stripped by `str.strip()` (`str.isspace`). -/
def pyIsSpace (c : Char) : Bool :=
  c == ' ' || c == '\t' || c == '\n' || c == '\r' || c.val == 0x0b || c.val == 0x0c ||
  (c.val.toNat ≥ 0x1c && c.val.toNat ≤ 0x1f) || c.val == 0x85 || c.val == 0xa0 ||
  c.val == 0x1680 || (c.val.toNat ≥ 0x2000 && c.val.toNat ≤ 0x200a) || c.val == 0x2028 ||
  c.val == 0x2029 || c.val == 0x202f || c.val == 0x205f || c.val == 0x3000

/-- Membership in the strip set of Python `str.strip('"\'')`. -/
def isQuote (c : Char) : Bool := c == quoteD || c == quoteS

/-- Substitution of one character for another. -/
def substChar (a b c : Char) : Char := if c = a then b else c

/-- `str.replace(a, b)` for single characters `a`, `b`: a character map. -/
def replaceChar (a b : Char) (l : List Char) : List Char :=
  l.map (substChar a b)

/-- One-pass scan for `re.sub(r'\s+', ' ', ·)`: `inRun` records whether
the previous character belonged to a whitespace run whose single `' '`
has already been emitted. -/
def collapseWsAux (inRun : Bool) : List Char → List Char
  | [] => []
  | c :: cs =>
    if pyIsSpace c then
      if inRun then collapseWsAux true cs else ' ' :: collapseWsAux true cs
    else c :: collapseWsAux false cs

/-- `re.sub(r'\s+', ' ', ·)`: every maximal whitespace run becomes one
ASCII space. -/
def collapseWs (l : List Char) : List Char := collapseWsAux false l

/-- Python `str.strip(chars)`: remove from both ends every character in
the strip set. -/
def pyStrip (p : Char → Bool) (l : List Char) : List Char :=
  ((l.dropWhile p).reverse.dropWhile p).reverse

/-! ## `ngm/utils/normalizer.py` -/

/-- `normalize_whitespace` (normalizer.py:3-14): collapse whitespace
runs, strip outer whitespace, strip surrounding quotes, and return `""`
when only whitespace remains.  The Python falsy guard `if not text`
returns `""` for the empty string. -/
def normalizeWhitespace (l : List Char) : List Char :=
  if l = [] then []
  else
    let t := pyStrip isQuote (pyStrip pyIsSpace (collapseWs l))
    if pyStrip pyIsSpace t = [] then [] else t

/-- The `nepali_to_roman` digit dictionary (normalizer.py:23-26), in
insertion order. -/
def nepaliRomanPairs : List (Char × Char) :=
  [('०', '0'), ('१', '1'), ('२', '2'), ('३', '3'), ('४', '4'),
   ('५', '5'), ('६', '6'), ('७', '7'), ('८', '8'), ('९', '9')]

/-- `nepali_to_roman_numerals` (normalizer.py:17-32): ten successive
single-character `str.replace` calls over the digit dictionary. -/
def nepaliToRomanNumerals (l : List Char) : List Char :=
  if l = [] then l
  else nepaliRomanPairs.foldl (fun acc p => replaceChar p.1 p.2 acc) l

/-- `roman_to_nepali_numerals` (normalizer.py:35-50): the inverse digit
dictionary, applied the same way. -/
def romanToNepaliNumerals (l : List Char) : List Char :=
  if l = [] then l
  else (nepaliRomanPairs.map fun p => (p.2, p.1)).foldl
        (fun acc p => replaceChar p.1 p.2 acc) l

/-- Python `'-'.split` semantics: `''.split('-') = ['']`, separators
delimit possibly-empty fields. -/
def splitDash : List Char → List (List Char)
  | [] => [[]]
  | c :: cs =>
    match splitDash cs with
    | [] => [[]]
    | p :: ps => if c = '-' then [] :: p :: ps else (c :: p) :: ps

/-- Python `str.zfill(w)`: left-pad with `'0'` to width `w`, inserting
the padding after a leading sign character; no-op when already wide
enough.  Total — the `except ValueError` branch in `normalize_date` is
dead code because `zfill` never raises. -/
def zfill (w : Nat) (l : List Char) : List Char :=
  if w ≤ l.length then l
  else
    match l with
    | [] => List.replicate w '0'
    | c :: cs =>
      if c = '+' ∨ c = '-' then c :: (List.replicate (w - (c :: cs).length) '0' ++ cs)
      else List.replicate (w - (c :: cs).length) '0' ++ (c :: cs)

/-- The separator-replacement block of `normalize_date`
(normalizer.py:79-83): `/`, the Devanagari danda, `|`, `.`, and space
all become `-`. -/
def replaceSeparators (l : List Char) : List Char :=
  replaceChar ' ' '-' (replaceChar '.' '-' (replaceChar '|' '-'
    (replaceChar '।' '-' (replaceChar '/' '-' l))))

/-- `normalize_date` (normalizer.py:53-98): transliterate digits,
normalize whitespace, rewrite separators to `-`, and zero-pad the
components when the result splits into exactly three parts. -/
def normalizeDate (l : List Char) : List Char :=
  if l = [] then l
  else
    let s := replaceSeparators (normalizeWhitespace (nepaliToRomanNumerals l))
    match splitDash s with
    | [y, m, d] => zfill 4 y ++ '-' :: (zfill 2 m ++ '-' :: zfill 2 d)
    | _ => s

/-- `re.sub(r'(\S)\(', r'\1 (', ·)` (normalizer.py:108): insert a space
between a non-whitespace character and a following `(`; the match
consumes both characters, so scanning resumes after the `(`. -/
def fpsAddSpace : List Char → List Char
  | [] => []
  | [c] => [c]
  | a :: b :: rest =>
    if b = '(' then
      if pyIsSpace a then a :: fpsAddSpace (b :: rest)
      else a :: ' ' :: '(' :: fpsAddSpace rest
    else a :: fpsAddSpace (b :: rest)

/-- One-pass scan for `re.sub(r'\(\s+', '(', ·)`: `afterOpen` records
whether the previously emitted character was a `(` whose trailing
whitespace run is being deleted; scanning resumes at the first
non-whitespace character, which may itself open a new match. -/
def fpsOpenAux (afterOpen : Bool) : List Char → List Char
  | [] => []
  | c :: cs =>
    if afterOpen ∧ pyIsSpace c then fpsOpenAux true cs
    else c :: fpsOpenAux (c = '(') cs

/-- `re.sub(r'\(\s+', '(', ·)` (normalizer.py:110): drop the whitespace
run after every `(`. -/
def fpsAfterOpen (l : List Char) : List Char := fpsOpenAux false l

/-- One-pass scan for `re.sub(r'\s+\)', ')', ·)`: `pending` buffers the
whitespace run currently being read; the run is deleted when a `)`
follows it, and flushed unchanged otherwise (no position inside such a
run can start a match). -/
def fpsCloseAux (pending : List Char) : List Char → List Char
  | [] => pending
  | c :: cs =>
    if pyIsSpace c then fpsCloseAux (pending ++ [c]) cs
    else if c = ')' then ')' :: fpsCloseAux [] cs
    else pending ++ c :: fpsCloseAux [] cs

/-- `re.sub(r'\s+\)', ')', ·)` (normalizer.py:112): a maximal whitespace
run directly followed by `)` is deleted. -/
def fpsBeforeClose (l : List Char) : List Char := fpsCloseAux [] l

/-- `fix_parenthesis_spacing` (normalizer.py:101-114): the three
substitutions in source order. -/
def fixParenthesisSpacing (l : List Char) : List Char :=
  if l = [] then l else fpsBeforeClose (fpsAfterOpen (fpsAddSpace l))

/-! ## Character-level view of the digit transliterations

The ten successive `str.replace` calls commute to a single character
map because every replacement target is a Devanagari digit while every
replacement image is an ASCII digit, so no call can affect the output
of an earlier one. -/

/-- The composite character map performed by `nepali_to_roman_numerals`. -/
def ntrChar (c : Char) : Char :=
  substChar '९' '9' (substChar '८' '8' (substChar '७' '7' (substChar '६' '6'
    (substChar '५' '5' (substChar '४' '4' (substChar '३' '3' (substChar '२' '2'
      (substChar '१' '1' (substChar '०' '0' c)))))))))

/-- The composite character map performed by `roman_to_nepali_numerals`. -/
def rtnChar (c : Char) : Char :=
  substChar '9' '९' (substChar '8' '८' (substChar '7' '७' (substChar '6' '६'
    (substChar '5' '५' (substChar '4' '४' (substChar '3' '३' (substChar '2' '२'
      (substChar '1' '१' (substChar '0' '०' c)))))))))

/-- The Devanagari digit block `०`–`९`. -/
def isNepDigit (c : Char) : Bool :=
  c == '०' || c == '१' || c == '२' || c == '३' || c == '४' ||
  c == '५' || c == '६' || c == '७' || c == '८' || c == '९'

/-- The ASCII digit block `0`–`9`. -/
def isAsciiDigit (c : Char) : Bool :=
  c == '0' || c == '1' || c == '2' || c == '3' || c == '4' ||
  c == '5' || c == '6' || c == '7' || c == '8' || c == '9'

/-- The unrolled replacement chain of `nepali_to_roman_numerals`. -/
def ntrRun (l : List Char) : List Char :=
  replaceChar '९' '9' (replaceChar '८' '8' (replaceChar '७' '7' (replaceChar '६' '6'
    (replaceChar '५' '5' (replaceChar '४' '4' (replaceChar '३' '3' (replaceChar '२' '2'
      (replaceChar '१' '1' (replaceChar '०' '0' l)))))))))

/-- The unrolled replacement chain of `roman_to_nepali_numerals`. -/
def rtnRun (l : List Char) : List Char :=
  replaceChar '9' '९' (replaceChar '8' '८' (replaceChar '7' '७' (replaceChar '6' '६'
    (replaceChar '5' '५' (replaceChar '4' '४' (replaceChar '3' '३' (replaceChar '2' '२'
      (replaceChar '1' '१' (replaceChar '0' '०' l)))))))))

/-! ## `ngm/utils/db_helpers.py` — `convert_bs_to_ad`

The `nepali.datetime.nepalidate` constructor and its `to_datetime`
conversion are an external library; they are abstracted as an
`Option`-valued oracle over the parsed components (`none` models the
exception the library raises on an invalid BS combination).  Python's
`int(str)` is modelled over the character classes that occur in this
domain: optional surrounding whitespace, an optional sign, then a
non-empty digit run (ASCII or Devanagari decimal digits) with single
underscores permitted between digits. -/

/-- The numeric value of a decimal digit character accepted by Python
`int`, restricted to the ASCII and Devanagari blocks. -/
def pyDigitVal (c : Char) : Option Nat :=
  if isAsciiDigit c then some (c.toNat - '0'.toNat)
  else if isNepDigit c then some (c.toNat - '०'.toNat)
  else none

/-- Digit-run tail: digits with single underscores between digits. -/
def pyIntDigitsAux (acc : Nat) : List Char → Option Nat
  | [] => some acc
  | '_' :: c :: rest =>
    match pyDigitVal c with
    | some d => pyIntDigitsAux (10 * acc + d) rest
    | none => none
  | ['_'] => none
  | c :: rest =>
    match pyDigitVal c with
    | some d => pyIntDigitsAux (10 * acc + d) rest
    | none => none

/-- Unsigned digit run: non-empty, starts with a digit. -/
def pyIntMag : List Char → Option Nat
  | [] => none
  | c :: rest =>
    match pyDigitVal c with
    | some d => pyIntDigitsAux d rest
    | none => none

/-- Signed integer body after whitespace stripping. -/
def pyIntCore : List Char → Option Int
  | '+' :: rest => (pyIntMag rest).map Int.ofNat
  | '-' :: rest => (pyIntMag rest).map fun n => -(n : Int)
  | l => (pyIntMag l).map Int.ofNat

/-- Python `int(str)`: `None` models the `ValueError` raise. -/
def pyInt (l : List Char) : Option Int := pyIntCore (pyStrip pyIsSpace l)

/-- `convert_bs_to_ad` (db_helpers.py:11-25): total by construction —
the bare `except Exception` wraps the whole body, so the only outcomes
are a Gregorian date or `None`.  `lib` is the abstracted
`nepalidate(y, m, d).to_datetime().date()` pipeline. -/
def convertBsToAd {α : Type} (lib : Int → Int → Int → Option α)
    (s : List Char) : Option α :=
  if s = [] then none
  else
    match splitDash s with
    | [a, b, c] =>
      match pyInt a, pyInt b, pyInt c with
      | some y, some m, some d => lib y m d
      | _, _, _ => none
    | _ => none

/-! ## District-court spider (`district_court_cases.py`)

The spider's per-unit state is the per-court checkpoint set of processed
AD dates plus the JSON output tree.  A daily-list HTTP response is
modelled by the results of the three BeautifulSoup queries the parser
performs on it: the `alert_error` panel test, the WAF-banner substring
test (present in the raw text but never consulted by this spider), and
the row-extraction outcome of each `record_display` table row (`none`
for a row that the guards skip or whose extraction raises).  Scrapy
processes each response callback synchronously, so a harvest run is the
fold of the per-unit transitions over the work grid. -/

/-- One extracted case row: the fields `save_case` consults, plus the
remaining rendered fields as an uninterpreted payload. -/
structure CaseRecord where
  caseNumber : List Char
  registrationDate : List Char
  payload : List Char
deriving DecidableEq

/-- Output path of `save_case`:
`court-cases/<code>/<reg-date|unknown>/<case-number>/activity/<date_bs>.json`. -/
structure CasePath where
  codeName : List Char
  regDateDir : List Char
  caseDir : List Char
  dateBs : List Char
deriving DecidableEq

/-- Directory components computed by `save_case`
(district_court_cases.py:246-261). -/
def districtCasePath (codeName : List Char) (cd : CaseRecord)
    (dateBs : List Char) : CasePath :=
  { codeName := codeName
    regDateDir := if cd.registrationDate = [] then "unknown".data else cd.registrationDate
    caseDir := replaceChar '\\' '-' (replaceChar '/' '-' cd.caseNumber)
    dateBs := dateBs }

/-- The JSON the spider writes for a case sighting: the extracted fields
plus the `scraped_at` capture timestamp. -/
def renderCase (cd : CaseRecord) (now : List Char) : List Char :=
  cd.caseNumber ++ cd.registrationDate ++ cd.payload ++ now

/-- The output tree, as an association list from path to file bytes. -/
abbrev FileStore := List (CasePath × List Char)

/-- File-exists test. -/
def fsLookup (fs : FileStore) (p : CasePath) : Option (List Char) :=
  (fs.find? fun e => decide (e.1 = p)).map (·.2)

/-- `save_case` (district_court_cases.py:246-273): skip when the file
already exists, else write the rendered record. -/
def saveCase (fs : FileStore) (codeName : List Char) (cd : CaseRecord)
    (dateBs now : List Char) : FileStore :=
  let p := districtCasePath codeName cd dateBs
  if fsLookup fs p ≠ none then fs
  else (p, renderCase cd now) :: fs

/-- Per-court checkpoint ledger: the set of (court code, AD date) units
recorded as processed. -/
abbrev Ckpt := List (List Char × List Char)

/-- `_mark_processed` (district_court_cases.py:241-244): add to the
per-court processed set (`set.add`, so a no-op on duplicates). -/
def markProcessed (k : Ckpt) (code d : List Char) : Ckpt :=
  if (code, d) ∈ k then k else (code, d) :: k

/-- A daily-list response, by the outcome of each query the parser runs
on it. -/
structure DailyResponse where
  causelistUnavailable : Bool
  rejectedBanner : Bool
  caseTables : List (List (Option CaseRecord))
deriving DecidableEq

/-- Row harvesting inside `parse_daily_list`: all rows of all tables,
dropping skipped/failed rows and rows with an empty case number
(`if not case_number: continue`). -/
def extractRows (tables : List (List (Option CaseRecord))) : List CaseRecord :=
  (tables.flatten.filterMap id).filter fun cd => !decide (cd.caseNumber = [])

/-- Spider state: checkpoint ledger plus output tree. -/
structure DistrictState where
  ckpt : Ckpt
  fs : FileStore

/-- `parse_daily_list` (district_court_cases.py:127-239).  Note the
branch structure: the absence panel and the missing-table case both
checkpoint; there is no WAF-banner branch in this spider, so
`rejectedBanner` is never consulted and every parsed response ends in
`_mark_processed`. -/
def parseDailyList (st : DistrictState) (codeName dateAd dateBs : List Char)
    (r : DailyResponse) (now : List Char) : DistrictState :=
  if r.causelistUnavailable then
    { st with ckpt := markProcessed st.ckpt codeName dateAd }
  else if r.caseTables = [] then
    { st with ckpt := markProcessed st.ckpt codeName dateAd }
  else
    let fs' := (extractRows r.caseTables).foldl
      (fun fs cd => saveCase fs codeName cd dateBs now) st.fs
    { ckpt := markProcessed st.ckpt codeName dateAd, fs := fs' }

/-- The (court, date) units for which `start_requests`
(district_court_cases.py:65-125) emits a `FormRequest`: the skip check
against the loaded checkpoint runs before the BS conversion and before
any request is yielded; a unit whose BS conversion raises is skipped
without a request. -/
def emittedRequests (courts : List (List Char)) (dates : List (List Char))
    (bsOf : List Char → Option (List Char)) (k : Ckpt) :
    List (List Char × List Char) :=
  courts.flatMap fun c =>
    (dates.filter fun d => !decide ((c, d) ∈ k) && (bsOf d).isSome).map
      fun d => (c, d)

/-- One court's pass over the date range: skip checkpointed dates, skip
dates whose BS conversion fails, otherwise fetch and parse. -/
def runDistrictCourt (dates : List (List Char))
    (bsOf : List Char → Option (List Char))
    (resp : List Char → List Char → DailyResponse) (now : List Char)
    (st : DistrictState) (c : List Char) : DistrictState :=
  dates.foldl
    (fun st d =>
      if (c, d) ∈ st.ckpt then st
      else
        match bsOf d with
        | none => st
        | some bs => parseDailyList st c d bs (resp c d) now)
    st

/-- A whole harvest run over the work grid.  `resp` is the source site
(unchanged source data = the same `resp` on both runs); `now` is the
run's clock, which flows into every written record's `scraped_at`. -/
def runDistrict (courts : List (List Char)) (dates : List (List Char))
    (bsOf : List Char → Option (List Char))
    (resp : List Char → List Char → DailyResponse) (now : List Char)
    (st : DistrictState) : DistrictState :=
  courts.foldl (runDistrictCourt dates bsOf resp now) st

/-! ## Supreme-court spider (`supreme_court_cases.py`) -/

/-- One extracted supreme-court case row. -/
structure SupremeRecord where
  caseNumber : List Char
  regDate : List Char
  payload : List Char
deriving DecidableEq

/-- A causelist response, by the outcome of the parser's queries:
the two WAF-banner substring tests, and the `_find_case_table` /
`_find_case_rows` results (`none` when no strategy finds a table). -/
structure SupremeResponse where
  rejectedBanner : Bool
  supportIdBanner : Bool
  caseTable : Option (List (Option SupremeRecord))
deriving DecidableEq

/-- Supreme spider state: processed AD dates plus the output tree,
keyed like the district store. -/
structure SupremeState where
  ckpt : List (List Char)
  fs : FileStore

/-- `save_checkpoint` (supreme_court_cases.py:168-176). -/
def supSaveCheckpoint (k : List (List Char)) (d : List Char) : List (List Char) :=
  if d ∈ k then k else d :: k

/-- `save_case` (supreme_court_cases.py:334-361), same
skip-if-file-exists write as the district spider. -/
def supSaveCase (fs : FileStore) (cd : SupremeRecord) (dateBs now : List Char) :
    FileStore :=
  let p : CasePath :=
    { codeName := "supremecourt".data
      regDateDir := if cd.regDate = [] then "unknown".data else cd.regDate
      caseDir := replaceChar '\\' '-' (replaceChar '/' '-' cd.caseNumber)
      dateBs := dateBs }
  if fsLookup fs p ≠ none then fs
  else (p, cd.caseNumber ++ cd.regDate ++ cd.payload ++ now) :: fs

/-- `parse_cases` (supreme_court_cases.py:231-332): the WAF branch
returns without checkpointing; a missing table, an empty row list, and
N extracted rows all end in `save_checkpoint`. -/
def supremeParseCases (st : SupremeState) (dateAd dateBs : List Char)
    (r : SupremeResponse) (now : List Char) : SupremeState :=
  if r.rejectedBanner || r.supportIdBanner then st
  else
    match r.caseTable with
    | none => { st with ckpt := supSaveCheckpoint st.ckpt dateAd }
    | some rows =>
      if rows = [] then { st with ckpt := supSaveCheckpoint st.ckpt dateAd }
      else
        let recs := (rows.filterMap id).filter fun cd => !decide (cd.caseNumber = [])
        let fs' := recs.foldl (fun fs cd => supSaveCase fs cd dateBs now) st.fs
        { ckpt := supSaveCheckpoint st.ckpt dateAd, fs := fs' }

/-! ## High-court spider (`high_court_cases.py`) — stage-1 fan-out

`parse_bench_list` is a generator: it yields the stage-2 `FormRequest`s
and then calls `save_checkpoint` as its final statement.  Scrapy's
engine consumes the whole generator on the reactor thread before any
newly scheduled download's response can reach its callback, so in any
run the checkpoint write precedes the processing of every stage-2
response of that unit.  The trace model below makes that ordering
explicit: callback-time effects first, then the responses to the
requests the callback issued. -/

/-- One bench row whose `onclick` matched the `send_data` pattern. -/
structure BenchInfo where
  benchId : List Char
  benchNo : List Char
  judgeName : List Char
deriving DecidableEq

/-- A stage-1 bench-list response: banner tests, then the bench table
(`none` when the striped table is absent) with per-row extraction
results (`none` for summary rows, short rows, or rows without a
matching `onclick`). -/
structure BenchListResponse where
  rejectedBanner : Bool
  supportIdBanner : Bool
  benchTable : Option (List (Option BenchInfo))
deriving DecidableEq

/-- What the generator emits, in source order. -/
inductive HCAction where
  | stage2Request (bench : BenchInfo)
  | ckptMark
deriving DecidableEq

/-- The benches extracted from a stage-1 response. -/
def hcBenches (r : BenchListResponse) : List BenchInfo :=
  match r.benchTable with
  | none => []
  | some rows => rows.filterMap id

/-- `parse_bench_list` (high_court_cases.py:136-240) as its ordered
effect list: WAF banner → bare return; missing table or no matching
bench rows → checkpoint only; otherwise one stage-2 request per bench
followed by the checkpoint write (`save_checkpoint` runs after the last
`yield`). -/
def parseBenchList (r : BenchListResponse) : List HCAction :=
  if r.rejectedBanner || r.supportIdBanner then []
  else
    match r.benchTable with
    | none => [HCAction.ckptMark]
    | some rows =>
      let benches := rows.filterMap id
      if benches = [] then [HCAction.ckptMark]
      else benches.map HCAction.stage2Request ++ [HCAction.ckptMark]

/-- Observable events of one high-court unit, in engine order. -/
inductive HCEvent where
  | ckptWritten (court dateAd : List Char)
  | stage2ResponseProcessed (court dateAd : List Char) (bench : BenchInfo)
deriving DecidableEq

/-- Events performed while the stage-1 callback itself runs (request
yields schedule a download but are not completions). -/
def hcCallbackEvents (court dateAd : List Char) (acts : List HCAction) :
    List HCEvent :=
  acts.filterMap fun a =>
    match a with
    | HCAction.ckptMark => some (HCEvent.ckptWritten court dateAd)
    | HCAction.stage2Request _ => none

/-- The stage-2 requests the callback scheduled. -/
def hcPendingRequests (acts : List HCAction) : List BenchInfo :=
  acts.filterMap fun a =>
    match a with
    | HCAction.stage2Request b => some b
    | HCAction.ckptMark => none

/-- The unit's event trace: callback effects, then the stage-2
responses, which the engine can only deliver after the generator that
scheduled them has been exhausted. -/
def hcUnitTrace (court dateAd : List Char) (r : BenchListResponse) :
    List HCEvent :=
  hcCallbackEvents court dateAd (parseBenchList r) ++
    (hcPendingRequests (parseBenchList r)).map
      (HCEvent.stage2ResponseProcessed court dateAd)

/-- Claim C3's ordering property over a trace: the checkpoint event of
the unit occurs only after every stage-2 completion of the unit. -/
def ckptOnlyAfterAllStage2 (tr : List HCEvent) (court dateAd : List Char) :
    Prop :=
  ∀ i j, tr.get? i = some (HCEvent.ckptWritten court dateAd) →
    (∃ b, tr.get? j = some (HCEvent.stage2ResponseProcessed court dateAd b)) →
    j < i

/-! ## Enrichment spiders (`special_case_enrichment.py`,
`supreme_case_enrichment.py`) — persistence of `parse_case_detail`

Both spiders share the same two-transaction shape: transaction one reads
the case and skips when its status is already `enriched`; extraction
runs outside any transaction; transaction two (`_save_enrichment`)
re-reads the case, merges scalar fields, rewrites the `extra_data` bag,
sets the status, deletes every `CaseEntity` row of the (case number,
COURT_ID) key and inserts the freshly extracted ones.  The two spiders
differ only in which `extra_data` keys they write, so the model takes
the update lists as arguments; `courtId` stands for the spider's
`COURT_ID` constant. -/

/-- The `cases` row fields the enrichment pass touches. -/
structure CaseRow where
  caseNumber : List Char
  courtId : List Char
  status : Option (List Char)
  fields : List (List Char × List Char)
  extraData : List (List Char × List Char)
  enrichedAt : Option (List Char)
  updatedAt : Option (List Char)
deriving DecidableEq

/-- A `case_entities` row. -/
structure EntityRow where
  caseNumber : List Char
  courtId : List Char
  side : List Char
  name : List Char
  address : Option (List Char)
  createdAt : List Char
  updatedAt : List Char
deriving DecidableEq

/-- The transactional store. -/
structure EnrichDB where
  cases : List CaseRow
  entities : List EntityRow
deriving DecidableEq

/-- One party extracted from the detail page. -/
structure EntitySpec where
  name : List Char
  address : Option (List Char)
deriving DecidableEq

/-- The parties the detail page yielded. -/
structure ExtractedEntities where
  plaintiffs : List EntitySpec
  defendants : List EntitySpec
deriving DecidableEq

/-- `session.query(CourtCase).filter(case_number == ·, court_identifier
== ·).first()`. -/
def findCase (db : EnrichDB) (cn courtId : List Char) : Option CaseRow :=
  db.cases.find? fun c => decide (c.caseNumber = cn ∧ c.courtId = courtId)

/-- Dictionary/attribute assignment: replace the key's binding. -/
def setField (fields : List (List Char × List Char)) (k v : List Char) :
    List (List Char × List Char) :=
  (k, v) :: fields.filter fun e => !decide (e.1 = k)

/-- Build one inserted `CaseEntity` row. -/
def mkEntity (cn courtId side : List Char) (e : EntitySpec) (now : List Char) :
    EntityRow :=
  { caseNumber := cn, courtId := courtId, side := side, name := e.name
    address := e.address, createdAt := now, updatedAt := now }

/-- The entity rows a save inserts for the case. -/
def newEntityRows (cn courtId : List Char) (ents : ExtractedEntities)
    (now : List Char) : List EntityRow :=
  ents.plaintiffs.map (fun e => mkEntity cn courtId "plaintiff".data e now) ++
    ents.defendants.map fun e => mkEntity cn courtId "defendant".data e now

/-- `_save_enrichment` (special_case_enrichment.py:330-411;
supreme_case_enrichment.py:461-534): one transaction that merges the
scalar updates and `extra_data` updates into the case row, marks it
`enriched`, deletes all prior entities of the (case number, COURT_ID)
key and inserts the new ones.  No status check occurs inside this
transaction. -/
def saveEnrichment (db : EnrichDB) (courtId cn : List Char)
    (enrich extra : List (List Char × List Char)) (ents : ExtractedEntities)
    (now : List Char) : EnrichDB :=
  match findCase db cn courtId with
  | none => db
  | some case =>
    let case' : CaseRow :=
      { case with
        fields := enrich.foldl (fun f kv => setField f kv.1 kv.2) case.fields
        extraData := extra.foldl (fun f kv => setField f kv.1 kv.2) case.extraData
        status := some "enriched".data
        enrichedAt := some now
        updatedAt := some now }
    { cases := db.cases.map fun c =>
        if c.caseNumber = cn ∧ c.courtId = courtId then case' else c
      entities :=
        (db.entities.filter fun e =>
          !decide (e.caseNumber = cn ∧ e.courtId = courtId)) ++
        newEntityRows cn courtId ents now }

/-- Transaction one of `parse_case_detail`
(special_case_enrichment.py:186-201; supreme_case_enrichment.py:431-446):
proceed only when the case exists and its status is not `enriched`. -/
def checkShouldWrite (db : EnrichDB) (courtId cn : List Char) : Bool :=
  match findCase db cn courtId with
  | none => false
  | some c => !decide (c.status = some "enriched".data)

/-- The sequential `parse_case_detail` flow of one worker against a
store that does not change between its two transactions: detail-table
guard, status-check transaction, then the save transaction. -/
def parseCaseDetailFlow (db : EnrichDB) (courtId cn : List Char)
    (mainTableFound : Bool) (enrich extra : List (List Char × List Char))
    (ents : ExtractedEntities) (now : List Char) : EnrichDB :=
  if !mainTableFound then db
  else if !checkShouldWrite db courtId cn then db
  else saveEnrichment db courtId cn enrich extra ents now

/-- The entity rows currently stored for a case. -/
def entitiesFor (db : EnrichDB) (cn courtId : List Char) : List EntityRow :=
  db.entities.filter fun e => decide (e.caseNumber = cn ∧ e.courtId = courtId)

/-- The composite character map of the separator-replacement block. -/
def sepChar (c : Char) : Char :=
  substChar ' ' '-' (substChar '.' '-' (substChar '|' '-'
    (substChar '।' '-' (substChar '/' '-' c))))

/-- The separator set of `normalize_date`. -/
def isDateSep (c : Char) : Bool :=
  c == '/' || c == '।' || c == '|' || c == '.' || c == ' '

/-- A decimal digit of either script. -/
def isAnyDigit (c : Char) : Bool := isAsciiDigit c || isNepDigit c

/-- Python `'-'.join`, the inverse of `splitDash`. -/
def joinDash : List (List Char) → List Char
  | [] => []
  | [p] => p
  | p :: ps => p ++ '-' :: joinDash ps

/-- Invariant of pass one's output. -/
def fpsR1 (a b : Char) : Prop := b = '(' → (pyIsSpace a = true ∨ a = '(')

/-- Invariant of pass two's output. -/
def fpsR2 (a b : Char) : Prop := a = '(' → pyIsSpace b = false

/-- Invariant of pass three's output. -/
def fpsR3 (a b : Char) : Prop := b = ')' → pyIsSpace a = false

theorem replaceChar_nil (a b : Char) : replaceChar a b [] = [] := rfl

theorem replaceChar_cons (a b c : Char) (cs : List Char) :
    replaceChar a b (c :: cs) = substChar a b c :: replaceChar a b cs := rfl

theorem ntrRun_nil : ntrRun [] = [] := by
  simp only [ntrRun, replaceChar_nil]

theorem ntrRun_cons (c : Char) (cs : List Char) :
    ntrRun (c :: cs) = ntrChar c :: ntrRun cs := by
  simp only [ntrRun, replaceChar_cons, ntrChar]

theorem rtnRun_nil : rtnRun [] = [] := by
  simp only [rtnRun, replaceChar_nil]

theorem rtnRun_cons (c : Char) (cs : List Char) :
    rtnRun (c :: cs) = rtnChar c :: rtnRun cs := by
  simp only [rtnRun, replaceChar_cons, rtnChar]

theorem ntrRun_eq_map (l : List Char) : ntrRun l = l.map ntrChar := by
  induction l with
  | nil => simp [ntrRun_nil]
  | cons c cs ih => rw [ntrRun_cons, ih, List.map_cons]

theorem rtnRun_eq_map (l : List Char) : rtnRun l = l.map rtnChar := by
  induction l with
  | nil => simp [rtnRun_nil]
  | cons c cs ih => rw [rtnRun_cons, ih, List.map_cons]

theorem nepaliToRomanNumerals_eq_map (l : List Char) :
    nepaliToRomanNumerals l = l.map ntrChar := by
  rw [show nepaliToRomanNumerals l = if l = [] then l else ntrRun l from rfl]
  split
  · simp [*]
  · exact ntrRun_eq_map l

theorem romanToNepaliNumerals_eq_map (l : List Char) :
    romanToNepaliNumerals l = l.map rtnChar := by
  rw [show romanToNepaliNumerals l = if l = [] then l else rtnRun l from rfl]
  split
  · simp [*]
  · exact rtnRun_eq_map l

theorem ntrChar_eq_self (c : Char) (h : isNepDigit c = false) : ntrChar c = c := by
  simp only [isNepDigit, Bool.or_eq_false_iff, beq_eq_false_iff_ne, ne_eq] at h
  obtain ⟨⟨⟨⟨⟨⟨⟨⟨⟨h0, h1⟩, h2⟩, h3⟩, h4⟩, h5⟩, h6⟩, h7⟩, h8⟩, h9⟩ := h
  simp [ntrChar, substChar, h0, h1, h2, h3, h4, h5, h6, h7, h8, h9]

theorem rtnChar_eq_self (c : Char) (h : isAsciiDigit c = false) : rtnChar c = c := by
  simp only [isAsciiDigit, Bool.or_eq_false_iff, beq_eq_false_iff_ne, ne_eq] at h
  obtain ⟨⟨⟨⟨⟨⟨⟨⟨⟨h0, h1⟩, h2⟩, h3⟩, h4⟩, h5⟩, h6⟩, h7⟩, h8⟩, h9⟩ := h
  simp [rtnChar, substChar, h0, h1, h2, h3, h4, h5, h6, h7, h8, h9]

theorem isNepDigit_cases (c : Char) (h : isNepDigit c = true) :
    c = '०' ∨ c = '१' ∨ c = '२' ∨ c = '३' ∨ c = '४' ∨
    c = '५' ∨ c = '६' ∨ c = '७' ∨ c = '८' ∨ c = '९' := by
  simp only [isNepDigit, Bool.or_eq_true, beq_iff_eq] at h
  tauto

theorem isAsciiDigit_cases (c : Char) (h : isAsciiDigit c = true) :
    c = '0' ∨ c = '1' ∨ c = '2' ∨ c = '3' ∨ c = '4' ∨
    c = '5' ∨ c = '6' ∨ c = '7' ∨ c = '8' ∨ c = '9' := by
  simp only [isAsciiDigit, Bool.or_eq_true, beq_iff_eq] at h
  tauto

theorem rtnChar_ntrChar (c : Char) (h : isNepDigit c = true) :
    rtnChar (ntrChar c) = c := by
  rcases isNepDigit_cases c h with h | h | h | h | h | h | h | h | h | h <;>
    subst h <;> decide

theorem ntrChar_rtnChar (c : Char) (h : isAsciiDigit c = true) :
    ntrChar (rtnChar c) = c := by
  rcases isAsciiDigit_cases c h with h | h | h | h | h | h | h | h | h | h <;>
    subst h <;> decide

theorem ntrChar_not_nep (c : Char) : isNepDigit (ntrChar c) = false := by
  by_cases h : isNepDigit c = true
  · rcases isNepDigit_cases c h with h | h | h | h | h | h | h | h | h | h <;>
      subst h <;> decide
  · rw [ntrChar_eq_self c (by simpa using h)]
    simpa using h


/-! ## Claim theorems -/

/-- C7: `convert_bs_to_ad` is total: the empty string, a string that
does not split on `-` into exactly three parts, a non-integer component,
and a library-rejected BS combination all yield `none`, and any date it
does return is the library's answer on the parsed triple — an invalid
triple can never surface as a wrong date.  The function never raises
(the Lean embedding is total because the Python body is wrapped in a
bare `except Exception`) and does not modify the BS string it is
given. -/
theorem convertBsToAd_total_and_localized {α : Type}
    (lib : Int → Int → Int → Option α) :
    (convertBsToAd lib [] = none) ∧
    (∀ s : List Char, (splitDash s).length ≠ 3 → convertBsToAd lib s = none) ∧
    (∀ s a b c, splitDash s = [a, b, c] →
      (pyInt a = none ∨ pyInt b = none ∨ pyInt c = none) →
      convertBsToAd lib s = none) ∧
    (∀ s a b c y m d, splitDash s = [a, b, c] →
      pyInt a = some y → pyInt b = some m → pyInt c = some d →
      convertBsToAd lib s = lib y m d) ∧
    (∀ s r, convertBsToAd lib s = some r →
      ∃ a b c y m d, splitDash s = [a, b, c] ∧ pyInt a = some y ∧
        pyInt b = some m ∧ pyInt c = some d ∧ lib y m d = some r) := by
  refine ⟨rfl, ?_, ?_, ?_, ?_⟩
  · intro s h
    by_cases hne : s = []
    · subst hne; rfl
    · simp only [convertBsToAd, if_neg hne]
      rcases hs : splitDash s with _ | ⟨a, _ | ⟨b, _ | ⟨c, _ | ⟨d, rest⟩⟩⟩⟩ <;>
        first
        | rfl
        | simp_all
  · intro s a b c hsplit hnone
    have hne : s ≠ [] := by
      intro he; subst he; simp [splitDash] at hsplit
    simp only [convertBsToAd, if_neg hne, hsplit]
    rcases ha : pyInt a with _ | y <;> rcases hb : pyInt b with _ | m <;>
      rcases hc : pyInt c with _ | d <;> simp_all
  · intro s a b c y m d hsplit ha hb hc
    have hne : s ≠ [] := by
      intro he; subst he; simp [splitDash] at hsplit
    simp only [convertBsToAd, if_neg hne, hsplit, ha, hb, hc]
  · intro s r h
    by_cases hne : s = []
    · subst hne; simp [convertBsToAd] at h
    · simp only [convertBsToAd, if_neg hne] at h
      rcases hs : splitDash s with _ | ⟨a, _ | ⟨b, _ | ⟨c, _ | ⟨d, rest⟩⟩⟩⟩ <;>
        rw [hs] at h <;> try simp at h
      rcases ha : pyInt a with _ | y <;> rcases hb : pyInt b with _ | m <;>
        rcases hc : pyInt c with _ | dd <;> rw [ha, hb, hc] at h <;> try simp at h
      exact ⟨a, b, c, y, m, dd, rfl, ha, hb, hc, h⟩

theorem convertBsToAd_witness :
    (splitDash "2081-09".data).length ≠ 3 ∧
    convertBsToAd (fun y m d => some (y, m, d)) "2081-09".data = none :=
  ⟨by decide, convertBsToAd_total_and_localized (fun y m d => some (y, m, d))
    |>.2.1 "2081-09".data (by decide)⟩


/-- C8: the digit transliteration acts characterwise (so non-digit
characters pass through unchanged), sends each Devanagari digit to the
corresponding ASCII digit of the source dictionary one-to-one, and
composing with `roman_to_nepali_numerals` recovers any string of pure
Devanagari digits (and the inverse composition recovers any string of
pure ASCII digits). -/
theorem nepaliToRoman_bijective_roundtrip :
    (∀ l : List Char, nepaliToRomanNumerals l = l.map ntrChar) ∧
    (∀ p ∈ nepaliRomanPairs, ntrChar p.1 = p.2) ∧
    (∀ c : Char, isNepDigit c = false → ntrChar c = c) ∧
    (∀ c₁ c₂ : Char, isNepDigit c₁ = true → isNepDigit c₂ = true →
      ntrChar c₁ = ntrChar c₂ → c₁ = c₂) ∧
    (∀ l : List Char, (∀ c ∈ l, isNepDigit c = true) →
      romanToNepaliNumerals (nepaliToRomanNumerals l) = l) ∧
    (∀ l : List Char, (∀ c ∈ l, isAsciiDigit c = true) →
      nepaliToRomanNumerals (romanToNepaliNumerals l) = l) := by
  refine ⟨nepaliToRomanNumerals_eq_map, by decide, ntrChar_eq_self, ?_, ?_, ?_⟩
  · intro c₁ c₂ h1 h2 he
    have e1 := rtnChar_ntrChar c₁ h1
    have e2 := rtnChar_ntrChar c₂ h2
    rw [← e1, he, e2]
  · intro l h
    rw [nepaliToRomanNumerals_eq_map, romanToNepaliNumerals_eq_map, List.map_map]
    have h2 : ∀ c ∈ l, (rtnChar ∘ ntrChar) c = id c := by
      intro c hc
      simp only [Function.comp_apply, id_eq]
      exact rtnChar_ntrChar c (h c hc)
    rw [List.map_congr_left h2, List.map_id]
  · intro l h
    rw [romanToNepaliNumerals_eq_map, nepaliToRomanNumerals_eq_map, List.map_map]
    have h2 : ∀ c ∈ l, (ntrChar ∘ rtnChar) c = id c := by
      intro c hc
      simp only [Function.comp_apply, id_eq]
      exact ntrChar_rtnChar c (h c hc)
    rw [List.map_congr_left h2, List.map_id]

theorem nepaliToRoman_roundtrip_witness :
    (∀ c ∈ ['२', '०', '८', '१'], isNepDigit c = true) ∧
    romanToNepaliNumerals (nepaliToRomanNumerals ['२', '०', '८', '१'])
      = ['२', '०', '८', '१'] :=
  ⟨by decide,
   nepaliToRoman_bijective_roundtrip.2.2.2.2.1 ['२', '०', '८', '१'] (by decide)⟩

/-- C10: `normalize_date` on falsy input returns it unchanged, and on
any other input whose transliterated, whitespace-normalized,
separator-replaced form does not split on `-` into exactly three parts,
returns that form as-is, with no zero-padding; the function is total, so
no error is raised on any input. -/
theorem normalizeDate_non_triple_passthrough :
    (normalizeDate [] = []) ∧
    (∀ l : List Char, l ≠ [] →
      (splitDash (replaceSeparators (normalizeWhitespace
        (nepaliToRomanNumerals l)))).length ≠ 3 →
      normalizeDate l =
        replaceSeparators (normalizeWhitespace (nepaliToRomanNumerals l))) := by
  refine ⟨rfl, ?_⟩
  intro l hne h
  simp only [normalizeDate, if_neg hne]
  rcases hs : splitDash (replaceSeparators (normalizeWhitespace
      (nepaliToRomanNumerals l))) with _ | ⟨a, _ | ⟨b, _ | ⟨c, _ | ⟨d, rest⟩⟩⟩⟩ <;>
    first
    | rfl
    | simp_all

theorem normalizeDate_non_triple_witness :
    "a/b".data ≠ [] ∧
    (splitDash (replaceSeparators (normalizeWhitespace
      (nepaliToRomanNumerals "a/b".data)))).length ≠ 3 ∧
    normalizeDate "a/b".data =
      replaceSeparators (normalizeWhitespace (nepaliToRomanNumerals "a/b".data)) :=
  ⟨by decide, by decide,
   normalizeDate_non_triple_passthrough.2 "a/b".data (by decide) (by decide)⟩


/-! ## Pipeline lemmas for `normalize_date` -/

theorem replaceSeparators_nil : replaceSeparators [] = [] := by
  simp only [replaceSeparators, replaceChar_nil]

theorem replaceSeparators_cons (c : Char) (cs : List Char) :
    replaceSeparators (c :: cs) = sepChar c :: replaceSeparators cs := by
  simp only [replaceSeparators, replaceChar_cons, sepChar]

theorem replaceSeparators_eq_map (l : List Char) :
    replaceSeparators l = l.map sepChar := by
  induction l with
  | nil => simp [replaceSeparators_nil]
  | cons c cs ih => rw [replaceSeparators_cons, ih, List.map_cons]

theorem sepChar_eq_self (c : Char) (h : isDateSep c = false) : sepChar c = c := by
  simp only [isDateSep, Bool.or_eq_false_iff, beq_eq_false_iff_ne, ne_eq] at h
  obtain ⟨⟨⟨⟨h1, h2⟩, h3⟩, h4⟩, h5⟩ := h
  simp [sepChar, substChar, h1, h2, h3, h4, h5]

theorem isDateSep_cases (c : Char) (h : isDateSep c = true) :
    c = '/' ∨ c = '।' ∨ c = '|' ∨ c = '.' ∨ c = ' ' := by
  simp only [isDateSep, Bool.or_eq_true, beq_iff_eq] at h
  tauto

theorem sepChar_of_sep (c : Char) (h : isDateSep c = true) : sepChar c = '-' := by
  rcases isDateSep_cases c h with h | h | h | h | h <;> subst h <;> decide

theorem ntrChar_of_sep (c : Char) (h : isDateSep c = true) : ntrChar c = c := by
  rcases isDateSep_cases c h with h | h | h | h | h <;> subst h <;> decide

theorem isAsciiDigit_ntrChar (c : Char) (h : isAnyDigit c = true) :
    isAsciiDigit (ntrChar c) = true := by
  rcases Bool.or_eq_true_iff.mp h with h | h
  · rw [ntrChar_eq_self]
    · exact h
    · rcases isAsciiDigit_cases c h with h | h | h | h | h | h | h | h | h | h <;>
        subst h <;> decide
  · rcases isNepDigit_cases c h with h | h | h | h | h | h | h | h | h | h <;>
      subst h <;> decide

theorem asciiDigit_not_space (c : Char) (h : isAsciiDigit c = true) :
    pyIsSpace c = false := by
  rcases isAsciiDigit_cases c h with h | h | h | h | h | h | h | h | h | h <;>
    subst h <;> decide

theorem asciiDigit_not_quote (c : Char) (h : isAsciiDigit c = true) :
    isQuote c = false := by
  rcases isAsciiDigit_cases c h with h | h | h | h | h | h | h | h | h | h <;>
    subst h <;> decide

theorem asciiDigit_not_dash (c : Char) (h : isAsciiDigit c = true) : ¬c = '-' := by
  rcases isAsciiDigit_cases c h with h | h | h | h | h | h | h | h | h | h <;>
    subst h <;> decide

theorem asciiDigit_not_sep (c : Char) (h : isAsciiDigit c = true) :
    isDateSep c = false := by
  rcases isAsciiDigit_cases c h with h | h | h | h | h | h | h | h | h | h <;>
    subst h <;> decide

theorem collapseWsAux_append_of_no_space (ds : List Char)
    (h : ∀ c ∈ ds, pyIsSpace c = false) (rest : List Char) :
    collapseWsAux false (ds ++ rest) = ds ++ collapseWsAux false rest := by
  induction ds with
  | nil => rfl
  | cons c cs ih =>
    have hc : pyIsSpace c = false := h c (by simp)
    simp only [List.cons_append, collapseWsAux, hc, Bool.false_eq_true, if_false,
      List.append_eq]
    rw [ih fun d hd => h d (by simp [hd])]

theorem collapseWsAux_true_of_head_not_space (l : List Char)
    (h : ∀ c ∈ l.head?, pyIsSpace c = false) :
    collapseWsAux true l = collapseWsAux false l := by
  cases l with
  | nil => rfl
  | cons c cs =>
    have hc : pyIsSpace c = false := h c (by simp)
    simp [collapseWsAux, hc]

theorem collapseWs_of_no_space (l : List Char)
    (h : ∀ c ∈ l, pyIsSpace c = false) : collapseWs l = l := by
  have h2 := collapseWsAux_append_of_no_space l h []
  simpa [collapseWs, collapseWsAux] using h2

theorem collapseWsAux_sep_cons (sep : Char) (hsep : isDateSep sep = true)
    (rest : List Char) (hh : ∀ c ∈ rest.head?, pyIsSpace c = false) :
    collapseWsAux false (sep :: rest) = sep :: collapseWsAux false rest := by
  by_cases hsp : sep = ' '
  · subst hsp
    simp only [collapseWsAux, show pyIsSpace ' ' = true from by decide, if_true]
    rw [collapseWsAux_true_of_head_not_space rest hh]
    simp
  · have : pyIsSpace sep = false := by
      rcases isDateSep_cases sep hsep with h | h | h | h | h <;>
        first
        | (subst h; decide)
        | (exact absurd h hsp)
    simp [collapseWsAux, this]

theorem dropWhile_eq_self_of_head (p : Char → Bool) (l : List Char)
    (h : ∀ c ∈ l.head?, p c = false) : l.dropWhile p = l := by
  cases l with
  | nil => rfl
  | cons c cs => simp_all [List.dropWhile_cons]

theorem pyStrip_eq_self (p : Char → Bool) (l : List Char)
    (hh : ∀ c ∈ l.head?, p c = false) (hl : ∀ c ∈ l.getLast?, p c = false) :
    pyStrip p l = l := by
  unfold pyStrip
  rw [dropWhile_eq_self_of_head p l hh,
    dropWhile_eq_self_of_head p l.reverse
      (by rw [List.head?_reverse]; exact hl),
    List.reverse_reverse]

theorem normalizeWhitespace_eq_self (l : List Char) (hne : l ≠ [])
    (hcol : collapseWs l = l)
    (hh : ∀ c ∈ l.head?, pyIsSpace c = false ∧ isQuote c = false)
    (hl : ∀ c ∈ l.getLast?, pyIsSpace c = false ∧ isQuote c = false) :
    normalizeWhitespace l = l := by
  have e1 : pyStrip pyIsSpace l = l :=
    pyStrip_eq_self _ _ (fun c hc => (hh c hc).1) fun c hc => (hl c hc).1
  have e2 : pyStrip isQuote l = l :=
    pyStrip_eq_self _ _ (fun c hc => (hh c hc).2) fun c hc => (hl c hc).2
  simp only [normalizeWhitespace, if_neg hne, hcol, e1, e2]

theorem splitDash_ne_nil (l : List Char) : splitDash l ≠ [] := by
  cases l with
  | nil => simp [splitDash]
  | cons c cs =>
    simp only [splitDash]
    split
    · simp
    · split <;> simp

theorem splitDash_no_dash (l : List Char) (h : '-' ∉ l) : splitDash l = [l] := by
  induction l with
  | nil => rfl
  | cons c cs ih =>
    have hc : ¬c = '-' := fun e => h (by simp [e])
    have ih2 : splitDash cs = [cs] := ih fun hm => h (by simp [hm])
    simp [splitDash, ih2, hc]

theorem splitDash_append (xs ys : List Char) (h : '-' ∉ xs) :
    splitDash (xs ++ '-' :: ys) = xs :: splitDash ys := by
  induction xs with
  | nil =>
    obtain ⟨p, ps, hp⟩ := List.exists_cons_of_ne_nil (splitDash_ne_nil ys)
    simp [splitDash, hp]
  | cons c cs ih =>
    have hc : ¬c = '-' := fun e => h (by simp [e])
    have ih2 := ih fun hm => h (by simp [hm])
    simp [splitDash, ih2, hc]


theorem map_sepChar_of_digits (l : List Char)
    (h : ∀ c ∈ l, isAsciiDigit c = true) : l.map sepChar = l := by
  have h2 : ∀ c ∈ l, sepChar c = id c := fun c hc => by
    rw [sepChar_eq_self c (asciiDigit_not_sep c (h c hc))]; rfl
  rw [List.map_congr_left h2, List.map_id]

/-- C9: a date string of three non-empty numeric components (Devanagari
or ASCII digits) separated by any two of `/`, the Devanagari danda, `|`,
`.`, or a literal space is rewritten by `normalize_date` to the
dash-separated form with the first component zero-padded to width 4 and
the second and third to width 2, digits transliterated to ASCII. -/
theorem normalizeDate_canonical_form
    (c₁ c₂ c₃ : List Char) (s₁ s₂ : Char)
    (h₁ : c₁ ≠ []) (h₂ : c₂ ≠ []) (h₃ : c₃ ≠ [])
    (hd₁ : ∀ c ∈ c₁, isAnyDigit c = true)
    (hd₂ : ∀ c ∈ c₂, isAnyDigit c = true)
    (hd₃ : ∀ c ∈ c₃, isAnyDigit c = true)
    (hs₁ : isDateSep s₁ = true) (hs₂ : isDateSep s₂ = true) :
    normalizeDate (c₁ ++ s₁ :: (c₂ ++ s₂ :: c₃)) =
      zfill 4 (c₁.map ntrChar) ++ '-' ::
        (zfill 2 (c₂.map ntrChar) ++ '-' :: zfill 2 (c₃.map ntrChar)) := by
  have hsne : c₁ ++ s₁ :: (c₂ ++ s₂ :: c₃) ≠ [] := by simp
  have had₁ : ∀ c ∈ c₁.map ntrChar, isAsciiDigit c = true := by
    intro c hc
    obtain ⟨a, ha, rfl⟩ := List.mem_map.mp hc
    exact isAsciiDigit_ntrChar a (hd₁ a ha)
  have had₂ : ∀ c ∈ c₂.map ntrChar, isAsciiDigit c = true := by
    intro c hc
    obtain ⟨a, ha, rfl⟩ := List.mem_map.mp hc
    exact isAsciiDigit_ntrChar a (hd₂ a ha)
  have had₃ : ∀ c ∈ c₃.map ntrChar, isAsciiDigit c = true := by
    intro c hc
    obtain ⟨a, ha, rfl⟩ := List.mem_map.mp hc
    exact isAsciiDigit_ntrChar a (hd₃ a ha)
  have hn₁ : c₁.map ntrChar ≠ [] := by simp [h₁]
  have hn₂ : c₂.map ntrChar ≠ [] := by simp [h₂]
  have hn₃ : c₃.map ntrChar ≠ [] := by simp [h₃]
  have e1 : nepaliToRomanNumerals (c₁ ++ s₁ :: (c₂ ++ s₂ :: c₃)) =
      c₁.map ntrChar ++ s₁ :: (c₂.map ntrChar ++ s₂ :: c₃.map ntrChar) := by
    rw [nepaliToRomanNumerals_eq_map]
    simp [List.map_append, ntrChar_of_sep s₁ hs₁, ntrChar_of_sep s₂ hs₂]
  have ecol : collapseWs (c₁.map ntrChar ++ s₁ ::
      (c₂.map ntrChar ++ s₂ :: c₃.map ntrChar)) =
      c₁.map ntrChar ++ s₁ :: (c₂.map ntrChar ++ s₂ :: c₃.map ntrChar) := by
    unfold collapseWs
    rw [collapseWsAux_append_of_no_space _
      (fun c hc => asciiDigit_not_space c (had₁ c hc)) _]
    rw [collapseWsAux_sep_cons s₁ hs₁ _ ?head₂]
    case head₂ =>
      obtain ⟨x, xs, hx⟩ := List.exists_cons_of_ne_nil hn₂
      rw [hx]
      intro c hc
      simp only [List.cons_append, List.head?_cons, Option.mem_def,
        Option.some.injEq] at hc
      subst hc
      exact asciiDigit_not_space x (had₂ x (by rw [hx]; simp))
    rw [collapseWsAux_append_of_no_space _
      (fun c hc => asciiDigit_not_space c (had₂ c hc)) _]
    rw [collapseWsAux_sep_cons s₂ hs₂ _ ?head₃]
    case head₃ =>
      obtain ⟨x, xs, hx⟩ := List.exists_cons_of_ne_nil hn₃
      rw [hx]
      intro c hc
      simp only [List.head?_cons, Option.mem_def, Option.some.injEq] at hc
      subst hc
      exact asciiDigit_not_space x (had₃ x (by rw [hx]; simp))
    rw [show collapseWsAux false (c₃.map ntrChar) = c₃.map ntrChar from
      collapseWs_of_no_space _ fun c hc => asciiDigit_not_space c (had₃ c hc)]
  have hhead : ∀ c ∈ (c₁.map ntrChar ++ s₁ ::
      (c₂.map ntrChar ++ s₂ :: c₃.map ntrChar)).head?,
      pyIsSpace c = false ∧ isQuote c = false := by
    obtain ⟨x, xs, hx⟩ := List.exists_cons_of_ne_nil hn₁
    rw [hx]
    intro c hc
    simp only [List.cons_append, List.head?_cons, Option.mem_def,
      Option.some.injEq] at hc
    subst hc
    have hxd : isAsciiDigit x = true := had₁ x (by rw [hx]; simp)
    exact ⟨asciiDigit_not_space x hxd, asciiDigit_not_quote x hxd⟩
  have hlast : ∀ c ∈ (c₁.map ntrChar ++ s₁ ::
      (c₂.map ntrChar ++ s₂ :: c₃.map ntrChar)).getLast?,
      pyIsSpace c = false ∧ isQuote c = false := by
    intro c hc
    rw [List.getLast?_append_of_ne_nil _ (by simp)] at hc
    rw [show s₁ :: (c₂.map ntrChar ++ s₂ :: c₃.map ntrChar) =
      [s₁] ++ (c₂.map ntrChar ++ s₂ :: c₃.map ntrChar) from rfl] at hc
    rw [List.getLast?_append_of_ne_nil _ (by simp)] at hc
    rw [List.getLast?_append_of_ne_nil _ (by simp)] at hc
    rw [show s₂ :: c₃.map ntrChar = [s₂] ++ c₃.map ntrChar from rfl] at hc
    rw [List.getLast?_append_of_ne_nil _ hn₃] at hc
    have hcm : c ∈ c₃.map ntrChar := List.mem_of_mem_getLast? hc
    have hcd := had₃ c hcm
    exact ⟨asciiDigit_not_space c hcd, asciiDigit_not_quote c hcd⟩
  have enw : normalizeWhitespace (c₁.map ntrChar ++ s₁ ::
      (c₂.map ntrChar ++ s₂ :: c₃.map ntrChar)) =
      c₁.map ntrChar ++ s₁ :: (c₂.map ntrChar ++ s₂ :: c₃.map ntrChar) :=
    normalizeWhitespace_eq_self _ (by simp) ecol hhead hlast
  have esep : replaceSeparators (c₁.map ntrChar ++ s₁ ::
      (c₂.map ntrChar ++ s₂ :: c₃.map ntrChar)) =
      c₁.map ntrChar ++ '-' :: (c₂.map ntrChar ++ '-' :: c₃.map ntrChar) := by
    rw [replaceSeparators_eq_map]
    simp only [List.map_append, List.map_cons, sepChar_of_sep s₁ hs₁,
      sepChar_of_sep s₂ hs₂, map_sepChar_of_digits _ had₁,
      map_sepChar_of_digits _ had₂, map_sepChar_of_digits _ had₃]
  have hnd₁ : '-' ∉ c₁.map ntrChar := fun hm => asciiDigit_not_dash _ (had₁ _ hm) rfl
  have hnd₂ : '-' ∉ c₂.map ntrChar := fun hm => asciiDigit_not_dash _ (had₂ _ hm) rfl
  have hnd₃ : '-' ∉ c₃.map ntrChar := fun hm => asciiDigit_not_dash _ (had₃ _ hm) rfl
  have esplit : splitDash (c₁.map ntrChar ++ '-' ::
      (c₂.map ntrChar ++ '-' :: c₃.map ntrChar)) =
      [c₁.map ntrChar, c₂.map ntrChar, c₃.map ntrChar] := by
    rw [splitDash_append _ _ hnd₁, splitDash_append _ _ hnd₂,
      splitDash_no_dash _ hnd₃]
  simp only [normalizeDate, if_neg hsne, e1, enw, esep, esplit]

theorem normalizeDate_canonical_witness :
    normalizeDate ("२०८१".data ++ '/' :: ("९".data ++ '/' :: "२८".data)) =
      zfill 4 ("२०८१".data.map ntrChar) ++ '-' ::
        (zfill 2 ("९".data.map ntrChar) ++ '-' :: zfill 2 ("२८".data.map ntrChar)) ∧
    normalizeDate "२०८१/९/२८".data = "2081-09-28".data :=
  ⟨normalizeDate_canonical_form "२०८१".data "९".data "२८".data '/' '/'
      (by decide) (by decide) (by decide) (by decide) (by decide) (by decide)
      (by decide) (by decide),
   by decide⟩


/-! ## Output characterisation lemmas for `normalize_date` idempotence -/

theorem mem_collapseWsAux (b : Bool) (v : List Char) (c : Char)
    (h : c ∈ collapseWsAux b v) : c ∈ v ∨ c = ' ' := by
  induction v generalizing b with
  | nil => simp [collapseWsAux] at h
  | cons d ds ih =>
    by_cases hd : pyIsSpace d = true
    · simp only [collapseWsAux, hd, if_true] at h
      rcases hb : b with _ | _
      · rw [hb] at h
        simp only [Bool.false_eq_true, if_false, List.mem_cons] at h
        rcases h with h | h
        · exact Or.inr h
        · rcases ih true h with h | h
          · exact Or.inl (by simp [h])
          · exact Or.inr h
      · rw [hb] at h
        simp only [if_true] at h
        rcases ih true h with h | h
        · exact Or.inl (by simp [h])
        · exact Or.inr h
    · simp only [collapseWsAux, hd, Bool.false_eq_true, if_false,
        List.mem_cons] at h
      rcases h with h | h
      · exact Or.inl (by simp [h])
      · rcases ih false h with h | h
        · exact Or.inl (by simp [h])
        · exact Or.inr h

theorem collapseWsAux_ws_only_space (b : Bool) (v : List Char) (c : Char)
    (h : c ∈ collapseWsAux b v) (hws : pyIsSpace c = true) : c = ' ' := by
  induction v generalizing b with
  | nil => simp [collapseWsAux] at h
  | cons d ds ih =>
    by_cases hd : pyIsSpace d = true
    · simp only [collapseWsAux, hd, if_true] at h
      rcases hb : b with _ | _
      · rw [hb] at h
        simp only [Bool.false_eq_true, if_false, List.mem_cons] at h
        rcases h with h | h
        · exact h
        · exact ih true h
      · rw [hb] at h
        simp only [if_true] at h
        exact ih true h
    · simp only [collapseWsAux, hd, Bool.false_eq_true, if_false,
        List.mem_cons] at h
      rcases h with h | h
      · subst h; exact absurd hws (by simp [hd])
      · exact ih false h

theorem mem_pyStrip (p : Char → Bool) (v : List Char) (c : Char)
    (h : c ∈ pyStrip p v) : c ∈ v := by
  unfold pyStrip at h
  rw [List.mem_reverse] at h
  have h2 := (List.dropWhile_sublist p).subset h
  rw [List.mem_reverse] at h2
  exact (List.dropWhile_sublist p).subset h2

theorem dropWhile_head?_false (p : Char → Bool) (v : List Char) :
    ∀ c ∈ (v.dropWhile p).head?, p c = false := by
  induction v with
  | nil => simp
  | cons d ds ih =>
    intro c hc
    by_cases hd : p d = true
    · rw [List.dropWhile_cons, if_pos hd] at hc
      exact ih c hc
    · rw [List.dropWhile_cons, if_neg hd] at hc
      simp only [List.head?_cons, Option.mem_def, Option.some.injEq] at hc
      subst hc
      simpa using hd

theorem pyStrip_getLast?_false (p : Char → Bool) (v : List Char) :
    ∀ c ∈ (pyStrip p v).getLast?, p c = false := by
  intro c hc
  unfold pyStrip at hc
  rw [List.getLast?_reverse] at hc
  exact dropWhile_head?_false p _ c hc

theorem pyStrip_head?_false (p : Char → Bool) (v : List Char) :
    ∀ c ∈ (pyStrip p v).head?, p c = false := by
  intro c hc
  unfold pyStrip at hc
  rw [List.head?_reverse] at hc
  rcases hz : (v.dropWhile p).reverse.dropWhile p with _ | ⟨z, zs⟩
  · rw [hz] at hc; simp at hc
  · have hsuf : (v.dropWhile p).reverse.dropWhile p <:+ (v.dropWhile p).reverse :=
      List.dropWhile_suffix p
    obtain ⟨pre, hpre⟩ := hsuf
    rw [hz] at hpre hc
    have h3 : (pre ++ z :: zs).getLast? = (z :: zs).getLast? :=
      List.getLast?_append_of_ne_nil pre (by simp)
    rw [hpre, List.getLast?_reverse] at h3
    exact dropWhile_head?_false p v c (by rw [h3]; exact hc)


theorem normalizeWhitespace_cases (v : List Char) :
    normalizeWhitespace v = [] ∨
    normalizeWhitespace v =
      pyStrip isQuote (pyStrip pyIsSpace (collapseWs v)) := by
  by_cases hv : v = []
  · left
    simp [normalizeWhitespace, hv]
  · by_cases h2 :
      pyStrip pyIsSpace (pyStrip isQuote (pyStrip pyIsSpace (collapseWs v))) = []
    · left
      simp [normalizeWhitespace, hv, h2]
    · right
      simp [normalizeWhitespace, hv, h2]

theorem mem_normalizeWhitespace (v : List Char) (c : Char)
    (h : c ∈ normalizeWhitespace v) : c ∈ v ∨ c = ' ' := by
  rcases normalizeWhitespace_cases v with he | he
  · rw [he] at h; simp at h
  · rw [he] at h
    exact mem_collapseWsAux false v c (mem_pyStrip _ _ c (mem_pyStrip _ _ c h))

theorem normalizeWhitespace_ws_only_space (v : List Char) (c : Char)
    (h : c ∈ normalizeWhitespace v) (hws : pyIsSpace c = true) : c = ' ' := by
  rcases normalizeWhitespace_cases v with he | he
  · rw [he] at h; simp at h
  · rw [he] at h
    exact collapseWsAux_ws_only_space false v c
      (mem_pyStrip _ _ c (mem_pyStrip _ _ c h)) hws

theorem normalizeWhitespace_head?_not_quote (v : List Char) :
    ∀ c ∈ (normalizeWhitespace v).head?, isQuote c = false := by
  intro c hc
  rcases normalizeWhitespace_cases v with he | he
  · rw [he] at hc; simp at hc
  · rw [he] at hc
    exact pyStrip_head?_false isQuote _ c hc

theorem normalizeWhitespace_getLast?_not_quote (v : List Char) :
    ∀ c ∈ (normalizeWhitespace v).getLast?, isQuote c = false := by
  intro c hc
  rcases normalizeWhitespace_cases v with he | he
  · rw [he] at hc; simp at hc
  · rw [he] at hc
    exact pyStrip_getLast?_false isQuote _ c hc

theorem sepChar_mem_cases (d : Char) : sepChar d = '-' ∨ sepChar d = d := by
  by_cases h : isDateSep d = true
  · exact Or.inl (sepChar_of_sep d h)
  · exact Or.inr (sepChar_eq_self d (by simpa using h))

theorem map_sepChar_sep_free (l : List Char) :
    ∀ c ∈ l.map sepChar, isDateSep c = false := by
  intro c hc
  obtain ⟨d, _, rfl⟩ := List.mem_map.mp hc
  by_cases h : isDateSep d = true
  · rw [sepChar_of_sep d h]; decide
  · rw [sepChar_eq_self d (by simpa using h)]; simpa using h

theorem map_sepChar_ws_free (l : List Char)
    (h : ∀ d ∈ l, pyIsSpace d = true → d = ' ') :
    ∀ c ∈ l.map sepChar, pyIsSpace c = false := by
  intro c hc
  obtain ⟨d, hd, rfl⟩ := List.mem_map.mp hc
  by_cases hs : isDateSep d = true
  · rw [sepChar_of_sep d hs]; decide
  · rw [sepChar_eq_self d (by simpa using hs)]
    by_cases hw : pyIsSpace d = true
    · have := h d hd hw
      subst this
      exact absurd (by decide : isDateSep ' ' = true) (by simpa using hs)
    · simpa using hw

theorem map_sepChar_nep_free (l : List Char)
    (h : ∀ d ∈ l, isNepDigit d = false) :
    ∀ c ∈ l.map sepChar, isNepDigit c = false := by
  intro c hc
  obtain ⟨d, hd, rfl⟩ := List.mem_map.mp hc
  rcases sepChar_mem_cases d with he | he <;> rw [he]
  · decide
  · exact h d hd

theorem joinDash_splitDash (u : List Char) : joinDash (splitDash u) = u := by
  induction u with
  | nil => rfl
  | cons c cs ih =>
    obtain ⟨p, ps, hp⟩ := List.exists_cons_of_ne_nil (splitDash_ne_nil cs)
    rw [hp] at ih
    simp only [splitDash, hp]
    by_cases hc : c = '-'
    · rw [if_pos hc, hc]
      show [] ++ '-' :: joinDash (p :: ps) = '-' :: cs
      rw [List.nil_append, ih]
    · rw [if_neg hc]
      cases ps with
      | nil =>
        show c :: p = c :: cs
        rw [show joinDash [p] = p from rfl] at ih
        rw [ih]
      | cons q qs =>
        show (c :: p) ++ '-' :: joinDash (q :: qs) = c :: cs
        rw [List.cons_append]
        rw [show p ++ '-' :: joinDash (q :: qs) = joinDash (p :: q :: qs) from rfl,
          ih]

theorem zfill_of_le (w : Nat) (l : List Char) (h : w ≤ l.length) :
    zfill w l = l := by
  unfold zfill
  rw [if_pos h]

theorem zfill_nil (w : Nat) (h : ¬w ≤ 0) : zfill w [] = List.replicate w '0' := by
  unfold zfill
  rw [if_neg (by simpa using h)]

theorem zfill_cons_eq (w : Nat) (c : Char) (cs : List Char)
    (h : ¬w ≤ (c :: cs).length) :
    zfill w (c :: cs) =
      if c = '+' ∨ c = '-' then
        c :: (List.replicate (w - (c :: cs).length) '0' ++ cs)
      else List.replicate (w - (c :: cs).length) '0' ++ (c :: cs) := by
  unfold zfill
  rw [if_neg h]

theorem zfill_cons_sign (w : Nat) (c : Char) (cs : List Char)
    (h : ¬w ≤ (c :: cs).length) (hs : c = '+' ∨ c = '-') :
    zfill w (c :: cs) = c :: (List.replicate (w - (c :: cs).length) '0' ++ cs) := by
  rw [zfill_cons_eq w c cs h, if_pos hs]

theorem zfill_cons_nosign (w : Nat) (c : Char) (cs : List Char)
    (h : ¬w ≤ (c :: cs).length) (hs : ¬(c = '+' ∨ c = '-')) :
    zfill w (c :: cs) = List.replicate (w - (c :: cs).length) '0' ++ (c :: cs) := by
  rw [zfill_cons_eq w c cs h, if_neg hs]

theorem zfill_length_ge (w : Nat) (l : List Char) : w ≤ (zfill w l).length := by
  by_cases h : w ≤ l.length
  · rw [zfill_of_le w l h]
    exact h
  · cases l with
    | nil =>
      rw [zfill_nil w (by simpa using h)]
      simp
    | cons c cs =>
      have hlen : cs.length + 1 < w := by
        simp only [List.length_cons, not_le] at h
        omega
      by_cases hs : c = '+' ∨ c = '-'
      · rw [zfill_cons_sign w c cs h hs]
        simp only [List.length_cons, List.length_append, List.length_replicate]
        omega
      · rw [zfill_cons_nosign w c cs h hs]
        simp only [List.length_cons, List.length_append, List.length_replicate]
        omega

theorem zfill_idem (w : Nat) (l : List Char) : zfill w (zfill w l) = zfill w l :=
  zfill_of_le w _ (zfill_length_ge w l)

theorem mem_zfill (w : Nat) (l : List Char) (c : Char) (h : c ∈ zfill w l) :
    c ∈ l ∨ c = '0' := by
  by_cases hle : w ≤ l.length
  · rw [zfill_of_le w l hle] at h
    exact Or.inl h
  · cases l with
    | nil =>
      rw [zfill_nil w (by simpa using hle)] at h
      simp only [List.mem_replicate] at h
      exact Or.inr h.2
    | cons d ds =>
      by_cases hs : d = '+' ∨ d = '-'
      · rw [zfill_cons_sign w d ds hle hs] at h
        simp only [List.mem_cons, List.mem_append, List.mem_replicate] at h
        rcases h with h | h | h
        · exact Or.inl (by simp [h])
        · exact Or.inr h.2
        · exact Or.inl (by simp [h])
      · rw [zfill_cons_nosign w d ds hle hs] at h
        simp only [List.mem_append, List.mem_replicate] at h
        rcases h with h | h
        · exact Or.inr h.2
        · exact Or.inl h

theorem head?_zfill (w : Nat) (l : List Char) :
    ∀ c ∈ (zfill w l).head?, c = '0' ∨ c ∈ l.head? := by
  intro c hc
  by_cases hle : w ≤ l.length
  · rw [zfill_of_le w l hle] at hc
    exact Or.inr hc
  · cases l with
    | nil =>
      rw [zfill_nil w (by simpa using hle)] at hc
      obtain ⟨k, rfl⟩ : ∃ k, w = k + 1 := ⟨w - 1, by simp at hle; omega⟩
      rw [List.replicate_succ] at hc
      simp only [List.head?_cons, Option.mem_def, Option.some.injEq] at hc
      exact Or.inl hc.symm
    | cons d ds =>
      by_cases hs : d = '+' ∨ d = '-'
      · rw [zfill_cons_sign w d ds hle hs] at hc
        simp only [List.head?_cons, Option.mem_def, Option.some.injEq] at hc
        exact Or.inr (by simp [← hc])
      · rw [zfill_cons_nosign w d ds hle hs] at hc
        obtain ⟨k, hk⟩ : ∃ k, w - (d :: ds).length = k + 1 :=
          ⟨w - (d :: ds).length - 1, by simp at hle ⊢; omega⟩
        rw [hk, List.replicate_succ, List.cons_append] at hc
        simp only [List.head?_cons, Option.mem_def, Option.some.injEq] at hc
        exact Or.inl hc.symm

theorem getLast?_zfill (w : Nat) (l : List Char) :
    ∀ c ∈ (zfill w l).getLast?, c = '0' ∨ c ∈ l.getLast? := by
  intro c hc
  by_cases hle : w ≤ l.length
  · rw [zfill_of_le w l hle] at hc
    exact Or.inr hc
  · cases l with
    | nil =>
      rw [zfill_nil w (by simpa using hle)] at hc
      have h2 := List.mem_of_mem_getLast? hc
      simp only [List.mem_replicate] at h2
      exact Or.inl h2.2
    | cons d ds =>
      by_cases hs : d = '+' ∨ d = '-'
      · rw [zfill_cons_sign w d ds hle hs] at hc
        cases ds with
        | nil =>
          rw [List.append_nil, ← List.singleton_append] at hc
          obtain ⟨k, hk⟩ : ∃ k, w - (d :: ([] : List Char)).length = k + 1 :=
            ⟨w - 2, by simp at hle ⊢; omega⟩
          rw [hk] at hc
          rw [List.getLast?_append_of_ne_nil [d] (by simp)] at hc
          have h2 := List.mem_of_mem_getLast? hc
          simp only [List.mem_replicate] at h2
          exact Or.inl h2.2
        | cons e es =>
          rw [← List.cons_append] at hc
          rw [List.getLast?_append_of_ne_nil _ (by simp)] at hc
          right
          rw [List.getLast?_cons_cons]
          exact hc
      · rw [zfill_cons_nosign w d ds hle hs] at hc
        rw [List.getLast?_append_of_ne_nil _ (by simp)] at hc
        exact Or.inr hc

theorem nepaliToRomanNumerals_eq_self_of_nep_free (l : List Char)
    (h : ∀ c ∈ l, isNepDigit c = false) : nepaliToRomanNumerals l = l := by
  rw [nepaliToRomanNumerals_eq_map]
  have h2 : ∀ c ∈ l, ntrChar c = id c := fun c hc => by
    rw [ntrChar_eq_self c (h c hc)]; rfl
  rw [List.map_congr_left h2, List.map_id]

theorem replaceSeparators_eq_self_of_sep_free (l : List Char)
    (h : ∀ c ∈ l, isDateSep c = false) : replaceSeparators l = l := by
  rw [replaceSeparators_eq_map]
  have h2 : ∀ c ∈ l, sepChar c = id c := fun c hc => by
    rw [sepChar_eq_self c (h c hc)]; rfl
  rw [List.map_congr_left h2, List.map_id]

theorem map_ntrChar_nep_free (l : List Char) :
    ∀ c ∈ l.map ntrChar, isNepDigit c = false := by
  intro c hc
  obtain ⟨d, _, rfl⟩ := List.mem_map.mp hc
  exact ntrChar_not_nep d


theorem mem_splitDash_no_dash (u : List Char) :
    ∀ p ∈ splitDash u, '-' ∉ p := by
  induction u with
  | nil =>
    intro p hp
    simp only [splitDash, List.mem_singleton] at hp
    subst hp
    simp
  | cons c cs ih =>
    intro p hp
    obtain ⟨q, qs, hq⟩ := List.exists_cons_of_ne_nil (splitDash_ne_nil cs)
    simp only [splitDash, hq] at hp
    by_cases hc : c = '-'
    · rw [if_pos hc] at hp
      rcases List.mem_cons.mp hp with h | h
      · subst h; simp
      · exact ih p (by rw [hq]; exact h)
    · rw [if_neg hc] at hp
      rcases List.mem_cons.mp hp with h | h
      · subst h
        intro hm
        rcases List.mem_cons.mp hm with h | h
        · exact hc h.symm
        · exact ih q (by rw [hq]; simp) h
      · exact ih p (by rw [hq]; simp [h])

/-- On a string already free of Devanagari digits, whitespace, and
separators, with no quote at either end, the `normalize_date` pipeline
stages are all identity, so only the split-and-pad step remains. -/
theorem normalizeDate_clean_eq (t : List Char)
    (hnep : ∀ c ∈ t, isNepDigit c = false)
    (hws : ∀ c ∈ t, pyIsSpace c = false)
    (hsep : ∀ c ∈ t, isDateSep c = false)
    (hhq : ∀ c ∈ t.head?, isQuote c = false)
    (hlq : ∀ c ∈ t.getLast?, isQuote c = false) :
    normalizeDate t =
      match splitDash t with
      | [y, m, d] => zfill 4 y ++ '-' :: (zfill 2 m ++ '-' :: zfill 2 d)
      | _ => t := by
  by_cases ht : t = []
  · subst ht
    rfl
  · have e1 : nepaliToRomanNumerals t = t :=
      nepaliToRomanNumerals_eq_self_of_nep_free t hnep
    have e2 : normalizeWhitespace t = t :=
      normalizeWhitespace_eq_self t ht (collapseWs_of_no_space t hws)
        (fun c hc => ⟨hws c (List.mem_of_mem_head? hc), hhq c hc⟩)
        (fun c hc => ⟨hws c (List.mem_of_mem_getLast? hc), hlq c hc⟩)
    have e3 : replaceSeparators t = t :=
      replaceSeparators_eq_self_of_sep_free t hsep
    simp only [normalizeDate, if_neg ht, e1, e2, e3]

/-- The character '0' and the dash are clean for every pipeline stage. -/
theorem zero_dash_clean :
    isNepDigit '0' = false ∧ pyIsSpace '0' = false ∧ isDateSep '0' = false ∧
    isQuote '0' = false ∧ isNepDigit '-' = false ∧ pyIsSpace '-' = false ∧
    isDateSep '-' = false ∧ isQuote '-' = false := by decide

/-- C6 (amended), supporting lemma: `normalize_date` is idempotent. -/
theorem normalizeDate_idem (l : List Char) :
    normalizeDate (normalizeDate l) = normalizeDate l := by
  by_cases hl : l = []
  · subst hl
    rfl
  · -- cleanliness of the pipeline output `u`
    have hXnep : ∀ c ∈ normalizeWhitespace (nepaliToRomanNumerals l),
        isNepDigit c = false := by
      intro c hc
      rcases mem_normalizeWhitespace _ c hc with h | h
      · rw [nepaliToRomanNumerals_eq_map] at h
        exact map_ntrChar_nep_free l c h
      · subst h; decide
    have hXws : ∀ c ∈ normalizeWhitespace (nepaliToRomanNumerals l),
        pyIsSpace c = true → c = ' ' :=
      fun c hc hw => normalizeWhitespace_ws_only_space _ c hc hw
    have hUnep : ∀ c ∈ replaceSeparators (normalizeWhitespace
        (nepaliToRomanNumerals l)), isNepDigit c = false := by
      intro c hc
      rw [replaceSeparators_eq_map] at hc
      exact map_sepChar_nep_free _ hXnep c hc
    have hUws : ∀ c ∈ replaceSeparators (normalizeWhitespace
        (nepaliToRomanNumerals l)), pyIsSpace c = false := by
      intro c hc
      rw [replaceSeparators_eq_map] at hc
      exact map_sepChar_ws_free _ hXws c hc
    have hUsep : ∀ c ∈ replaceSeparators (normalizeWhitespace
        (nepaliToRomanNumerals l)), isDateSep c = false := by
      intro c hc
      rw [replaceSeparators_eq_map] at hc
      exact map_sepChar_sep_free _ c hc
    have hUhq : ∀ c ∈ (replaceSeparators (normalizeWhitespace
        (nepaliToRomanNumerals l))).head?, isQuote c = false := by
      intro c hc
      rw [replaceSeparators_eq_map, List.head?_map] at hc
      rcases hX : (normalizeWhitespace (nepaliToRomanNumerals l)).head? with _ | d
      · rw [hX] at hc; simp at hc
      · rw [hX] at hc
        simp at hc
        have hdq : isQuote d = false :=
          normalizeWhitespace_head?_not_quote _ d (by rw [hX]; rfl)
        rcases sepChar_mem_cases d with he | he <;> rw [he] at hc <;> subst hc
        · decide
        · exact hdq
    have hUlq : ∀ c ∈ (replaceSeparators (normalizeWhitespace
        (nepaliToRomanNumerals l))).getLast?, isQuote c = false := by
      intro c hc
      rw [replaceSeparators_eq_map, List.getLast?_map] at hc
      rcases hX : (normalizeWhitespace (nepaliToRomanNumerals l)).getLast? with _ | d
      · rw [hX] at hc; simp at hc
      · rw [hX] at hc
        simp at hc
        have hdq : isQuote d = false :=
          normalizeWhitespace_getLast?_not_quote _ d (by rw [hX]; rfl)
        rcases sepChar_mem_cases d with he | he <;> rw [he] at hc <;> subst hc
        · decide
        · exact hdq
    have hout : normalizeDate l =
        match splitDash (replaceSeparators (normalizeWhitespace
          (nepaliToRomanNumerals l))) with
        | [y, m, d] => zfill 4 y ++ '-' :: (zfill 2 m ++ '-' :: zfill 2 d)
        | _ => replaceSeparators (normalizeWhitespace
            (nepaliToRomanNumerals l)) := by
      simp only [normalizeDate, if_neg hl]
    rcases h3 : splitDash (replaceSeparators (normalizeWhitespace
        (nepaliToRomanNumerals l))) with _ | ⟨p₁, _ | ⟨p₂, _ | ⟨p₃, _ | ⟨p₄, ps⟩⟩⟩⟩
    all_goals rw [h3] at hout
    -- goals in order: 0, 1, 2 and 4 dash-fields (non-triple: the output
    -- is `u` itself and the second pass repeats the same split), and the
    -- triple branch in fourth position
    · rw [hout, normalizeDate_clean_eq _ hUnep hUws hUsep hUhq hUlq, h3]
    · rw [hout, normalizeDate_clean_eq _ hUnep hUws hUsep hUhq hUlq, h3]
    · rw [hout, normalizeDate_clean_eq _ hUnep hUws hUsep hUhq hUlq, h3]
    · -- triple branch
      have hju : replaceSeparators (normalizeWhitespace
          (nepaliToRomanNumerals l)) = p₁ ++ '-' :: (p₂ ++ '-' :: p₃) := by
        have := joinDash_splitDash (replaceSeparators (normalizeWhitespace
          (nepaliToRomanNumerals l)))
        rw [h3] at this
        exact this.symm
      have hmem₁ : ∀ c ∈ p₁, c ∈ replaceSeparators (normalizeWhitespace
          (nepaliToRomanNumerals l)) := by
        intro c hc; rw [hju]; simp [hc]
      have hmem₂ : ∀ c ∈ p₂, c ∈ replaceSeparators (normalizeWhitespace
          (nepaliToRomanNumerals l)) := by
        intro c hc; rw [hju]; simp [hc]
      have hmem₃ : ∀ c ∈ p₃, c ∈ replaceSeparators (normalizeWhitespace
          (nepaliToRomanNumerals l)) := by
        intro c hc; rw [hju]; simp [hc]
      have hnd₁ : '-' ∉ p₁ := mem_splitDash_no_dash _ p₁ (by rw [h3]; simp)
      have hnd₂ : '-' ∉ p₂ := mem_splitDash_no_dash _ p₂ (by rw [h3]; simp)
      have hnd₃ : '-' ∉ p₃ := mem_splitDash_no_dash _ p₃ (by rw [h3]; simp)
      have hzd₁ : '-' ∉ zfill 4 p₁ := by
        intro hm
        rcases mem_zfill 4 p₁ '-' hm with h | h
        · exact hnd₁ h
        · cases h
      have hzd₂ : '-' ∉ zfill 2 p₂ := by
        intro hm
        rcases mem_zfill 2 p₂ '-' hm with h | h
        · exact hnd₂ h
        · cases h
      have hzd₃ : '-' ∉ zfill 2 p₃ := by
        intro hm
        rcases mem_zfill 2 p₃ '-' hm with h | h
        · exact hnd₃ h
        · cases h
      -- cleanliness of the padded output t
      have htm : ∀ c ∈ zfill 4 p₁ ++ '-' :: (zfill 2 p₂ ++ '-' :: zfill 2 p₃),
          c = '-' ∨ c = '0' ∨ c ∈ replaceSeparators (normalizeWhitespace
            (nepaliToRomanNumerals l)) := by
        intro c hc
        simp only [List.mem_append, List.mem_cons] at hc
        rcases hc with hc | hc | hc | hc | hc
        · rcases mem_zfill 4 p₁ c hc with h | h
          · exact Or.inr (Or.inr (hmem₁ c h))
          · exact Or.inr (Or.inl h)
        · exact Or.inl hc
        · rcases mem_zfill 2 p₂ c hc with h | h
          · exact Or.inr (Or.inr (hmem₂ c h))
          · exact Or.inr (Or.inl h)
        · exact Or.inl hc
        · rcases mem_zfill 2 p₃ c hc with h | h
          · exact Or.inr (Or.inr (hmem₃ c h))
          · exact Or.inr (Or.inl h)
      have htnep : ∀ c ∈ zfill 4 p₁ ++ '-' :: (zfill 2 p₂ ++ '-' :: zfill 2 p₃),
          isNepDigit c = false := by
        intro c hc
        rcases htm c hc with h | h | h
        · subst h; decide
        · subst h; decide
        · exact hUnep c h
      have htws : ∀ c ∈ zfill 4 p₁ ++ '-' :: (zfill 2 p₂ ++ '-' :: zfill 2 p₃),
          pyIsSpace c = false := by
        intro c hc
        rcases htm c hc with h | h | h
        · subst h; decide
        · subst h; decide
        · exact hUws c h
      have htsep : ∀ c ∈ zfill 4 p₁ ++ '-' :: (zfill 2 p₂ ++ '-' :: zfill 2 p₃),
          isDateSep c = false := by
        intro c hc
        rcases htm c hc with h | h | h
        · subst h; decide
        · subst h; decide
        · exact hUsep c h
      have hz₁ne : zfill 4 p₁ ≠ [] :=
        List.ne_nil_of_length_pos (by have := zfill_length_ge 4 p₁; omega)
      have hz₃ne : zfill 2 p₃ ≠ [] :=
        List.ne_nil_of_length_pos (by have := zfill_length_ge 2 p₃; omega)
      have hthq : ∀ c ∈ (zfill 4 p₁ ++ '-' ::
          (zfill 2 p₂ ++ '-' :: zfill 2 p₃)).head?, isQuote c = false := by
        intro c hc
        rw [List.head?_append_of_ne_nil _ hz₁ne] at hc
        rcases head?_zfill 4 p₁ c hc with h | h
        · subst h; decide
        · rcases hp₁ : p₁ with _ | ⟨d, ds⟩
          · rw [hp₁] at h; simp at h
          · apply hUhq
            rw [hju, hp₁]
            rw [hp₁] at h
            simpa using h
      have hthl : ∀ c ∈ (zfill 4 p₁ ++ '-' ::
          (zfill 2 p₂ ++ '-' :: zfill 2 p₃)).getLast?, isQuote c = false := by
        intro c hc
        rw [List.getLast?_append_of_ne_nil _ (by simp)] at hc
        rw [show ('-' :: (zfill 2 p₂ ++ '-' :: zfill 2 p₃))
            = ['-'] ++ (zfill 2 p₂ ++ '-' :: zfill 2 p₃) from rfl] at hc
        rw [List.getLast?_append_of_ne_nil _ (by simp [hz₃ne])] at hc
        rw [List.getLast?_append_of_ne_nil _ (by simp)] at hc
        rw [show ('-' :: zfill 2 p₃) = ['-'] ++ zfill 2 p₃ from rfl] at hc
        rw [List.getLast?_append_of_ne_nil _ hz₃ne] at hc
        rcases getLast?_zfill 2 p₃ c hc with h | h
        · subst h; decide
        · rcases hp₃ : p₃ with _ | ⟨d, ds⟩
          · rw [hp₃] at h; simp at h
          · apply hUlq
            rw [hju]
            rw [List.getLast?_append_of_ne_nil _ (by simp)]
            rw [show ('-' :: (p₂ ++ '-' :: p₃)) = ['-'] ++ (p₂ ++ '-' :: p₃)
              from rfl]
            rw [List.getLast?_append_of_ne_nil _ (by simp [hp₃])]
            rw [List.getLast?_append_of_ne_nil _ (by simp)]
            rw [show ('-' :: p₃) = ['-'] ++ p₃ from rfl]
            rw [List.getLast?_append_of_ne_nil _ (by rw [hp₃]; simp)]
            rw [hp₃] at h ⊢
            exact h
      have hsplit : splitDash (zfill 4 p₁ ++ '-' ::
          (zfill 2 p₂ ++ '-' :: zfill 2 p₃)) =
          [zfill 4 p₁, zfill 2 p₂, zfill 2 p₃] := by
        rw [splitDash_append _ _ hzd₁, splitDash_append _ _ hzd₂,
          splitDash_no_dash _ hzd₃]
      rw [hout, normalizeDate_clean_eq _ htnep htws htsep hthq hthl, hsplit]
      show zfill 4 (zfill 4 p₁) ++ '-' ::
          (zfill 2 (zfill 2 p₂) ++ '-' :: zfill 2 (zfill 2 p₃)) =
        zfill 4 p₁ ++ '-' :: (zfill 2 p₂ ++ '-' :: zfill 2 p₃)
      rw [zfill_idem, zfill_idem, zfill_idem]
    · rw [hout, normalizeDate_clean_eq _ hUnep hUws hUsep hUhq hUlq, h3]


/-! ## Idempotence of `fix_parenthesis_spacing`

The three invariants a pass establishes on its output: every `(` is
preceded by whitespace or another `(` (the unconsumed left half of a
`((` match), no `(` is followed by whitespace, and no whitespace
directly precedes a `)`.  A second pass over a string satisfying all
three undoes itself exactly: the first substitution inserts a space
only inside `((` pairs, the second deletes exactly those spaces again,
and the third finds no match at all. -/

theorem fpsAddSpace_nil : fpsAddSpace [] = [] := rfl

theorem fpsAddSpace_one (c : Char) : fpsAddSpace [c] = [c] := rfl

theorem fpsAddSpace_match (a b : Char) (rest : List Char) (hb : b = '(')
    (ha : pyIsSpace a = false) :
    fpsAddSpace (a :: b :: rest) = a :: ' ' :: '(' :: fpsAddSpace rest := by
  simp only [fpsAddSpace]
  rw [if_pos hb, if_neg (by simp [ha])]

theorem fpsAddSpace_skip_space (a b : Char) (rest : List Char) (hb : b = '(')
    (ha : pyIsSpace a = true) :
    fpsAddSpace (a :: b :: rest) = a :: fpsAddSpace (b :: rest) := by
  simp only [fpsAddSpace]
  rw [if_pos hb, if_pos ha]

theorem fpsAddSpace_skip (a b : Char) (rest : List Char) (hb : ¬b = '(') :
    fpsAddSpace (a :: b :: rest) = a :: fpsAddSpace (b :: rest) := by
  simp only [fpsAddSpace]
  rw [if_neg hb]

theorem fpsAddSpace_head (x : Char) (xs : List Char) :
    (fpsAddSpace (x :: xs)).head? = some x := by
  cases xs with
  | nil => rfl
  | cons b rest =>
    by_cases hb : b = '('
    · by_cases ha : pyIsSpace x = true
      · rw [fpsAddSpace_skip_space x b rest hb ha]
        rfl
      · rw [fpsAddSpace_match x b rest hb (by simpa using ha)]
        rfl
    · rw [fpsAddSpace_skip x b rest hb]
      rfl

theorem fpsAddSpace_chain1 : ∀ l : List Char, List.Chain' fpsR1 (fpsAddSpace l)
  | [] => by simp [fpsAddSpace_nil]
  | [c] => by simp [fpsAddSpace_one]
  | a :: b :: rest => by
    by_cases hb : b = '('
    · by_cases ha : pyIsSpace a = true
      · rw [fpsAddSpace_skip_space a b rest hb ha]
        rw [List.chain'_cons']
        refine ⟨?_, fpsAddSpace_chain1 (b :: rest)⟩
        intro y hy
        rw [fpsAddSpace_head] at hy
        intro _
        exact Or.inl ha
      · rw [fpsAddSpace_match a b rest hb (by simpa using ha)]
        rw [List.chain'_cons, List.chain'_cons]
        refine ⟨?_, ?_, ?_⟩
        · intro h
          exact absurd h (by decide)
        · intro _
          exact Or.inl (by decide)
        · rw [List.chain'_cons']
          refine ⟨?_, fpsAddSpace_chain1 rest⟩
          intro y _ _
          exact Or.inr rfl
    · rw [fpsAddSpace_skip a b rest hb]
      rw [List.chain'_cons']
      refine ⟨?_, fpsAddSpace_chain1 (b :: rest)⟩
      intro y hy
      rw [fpsAddSpace_head] at hy
      simp only [Option.mem_def, Option.some.injEq] at hy
      subst hy
      intro h
      exact absurd h hb


theorem fpsOpenAux_nil (st : Bool) : fpsOpenAux st [] = [] := rfl

theorem fpsOpenAux_delete (c : Char) (cs : List Char) (hc : pyIsSpace c = true) :
    fpsOpenAux true (c :: cs) = fpsOpenAux true cs := by
  simp only [fpsOpenAux]
  rw [if_pos (by simp [hc])]

theorem fpsOpenAux_emit (st : Bool) (c : Char) (cs : List Char)
    (h : ¬(st = true ∧ pyIsSpace c = true)) :
    fpsOpenAux st (c :: cs) = c :: fpsOpenAux (decide (c = '(')) cs := by
  simp only [fpsOpenAux]
  rw [if_neg h]

theorem fpsOpenAux_false_head (v : List Char) :
    (fpsOpenAux false v).head? = v.head? := by
  cases v with
  | nil => rfl
  | cons c cs =>
    rw [fpsOpenAux_emit false c cs (by simp)]
    rfl

theorem fpsOpenAux_chain2 : ∀ (v : List Char) (st : Bool),
    List.Chain' fpsR2 (fpsOpenAux st v) ∧
    (st = true → ∀ c ∈ (fpsOpenAux st v).head?, pyIsSpace c = false)
  | [], st => ⟨by simp [fpsOpenAux_nil], by simp [fpsOpenAux_nil]⟩
  | c :: cs, st => by
    by_cases h : st = true ∧ pyIsSpace c = true
    · obtain ⟨h1, h2⟩ := h
      subst h1
      rw [fpsOpenAux_delete c cs h2]
      exact fpsOpenAux_chain2 cs true
    · rw [fpsOpenAux_emit st c cs h]
      constructor
      · rw [List.chain'_cons']
        refine ⟨?_, (fpsOpenAux_chain2 cs _).1⟩
        intro y hy hcp
        exact (fpsOpenAux_chain2 cs _).2 (by simp [hcp]) y hy
      · intro hst y hy
        simp only [List.head?_cons, Option.mem_def, Option.some.injEq] at hy
        subst hy
        subst hst
        simp only [true_and] at h
        simpa using h

theorem fpsOpenAux_chain1 : ∀ (v : List Char) (st : Bool),
    List.Chain' fpsR1 v → List.Chain' fpsR1 (fpsOpenAux st v)
  | [], st, _ => by simp [fpsOpenAux_nil]
  | c :: cs, st, hch => by
    by_cases h : st = true ∧ pyIsSpace c = true
    · rw [show fpsOpenAux st (c :: cs) = fpsOpenAux true cs from by
        obtain ⟨h1, h2⟩ := h
        subst h1
        exact fpsOpenAux_delete c cs h2]
      exact fpsOpenAux_chain1 cs true hch.tail
    · rw [fpsOpenAux_emit st c cs h]
      rw [List.chain'_cons']
      refine ⟨?_, fpsOpenAux_chain1 cs _ hch.tail⟩
      intro y hy hyp
      by_cases hcp : c = '('
      · exact Or.inr hcp
      · rw [show (decide (c = '(')) = false from by simp [hcp],
          fpsOpenAux_false_head] at hy
        rw [List.chain'_cons'] at hch
        exact hch.1 y hy hyp

/-- On a string satisfying the pass-one and pass-two invariants, the
space-insertion pass followed by the space-after-`(` deletion pass is
the identity: insertion happens only inside `((` pairs and deletion
removes exactly those inserted spaces. -/
theorem fpsOpen_fpsAdd_id : ∀ (t : List Char) (st : Bool),
    List.Chain' fpsR1 t → List.Chain' fpsR2 t →
    (st = true → ∀ c ∈ t.head?, pyIsSpace c = false) →
    fpsOpenAux st (fpsAddSpace t) = t
  | [], _, _, _, _ => by simp [fpsAddSpace_nil, fpsOpenAux_nil]
  | [c], st, _, _, hst => by
    rw [fpsAddSpace_one]
    have hcsp : ¬(st = true ∧ pyIsSpace c = true) := by
      rintro ⟨hs, hsp⟩
      have := hst hs c (by simp)
      simp [this] at hsp
    rw [fpsOpenAux_emit st c [] hcsp, fpsOpenAux_nil]
  | a :: b :: rest, st, h1, h2, hst => by
    have hstf : ¬(st = true ∧ pyIsSpace a = true) := by
      rintro ⟨hs, hsp⟩
      have := hst hs a (by simp)
      simp [this] at hsp
    by_cases hb : b = '('
    · by_cases ha : pyIsSpace a = true
      · rw [fpsAddSpace_skip_space a b rest hb ha]
        rw [fpsOpenAux_emit st a _ hstf]
        congr 1
        have hap : ¬(a = '(') := by
          intro he
          subst he
          exact absurd ha (by decide)
        rw [show (decide (a = '(')) = false from by simp [hap]]
        exact fpsOpen_fpsAdd_id (b :: rest) false h1.tail h2.tail (by simp)
      · have hap : a = '(' := by
          rw [List.chain'_cons] at h1
          rcases h1.1 hb with h | h
          · exact absurd h (by simp [ha])
          · exact h
        subst hap
        subst hb
        rw [fpsAddSpace_match '(' '(' rest rfl (by simpa using ha)]
        rw [fpsOpenAux_emit st '(' _ (by rintro ⟨_, hsp⟩; exact absurd hsp (by decide))]
        rw [show (decide ('(' = '(')) = true from by decide]
        rw [fpsOpenAux_delete ' ' _ (by decide)]
        rw [fpsOpenAux_emit true '(' _ (by rintro ⟨_, hsp⟩; exact absurd hsp (by decide))]
        rw [show (decide ('(' = '(')) = true from by decide]
        congr 1
        congr 1
        apply fpsOpen_fpsAdd_id rest true h1.tail.tail h2.tail.tail
        intro _ y hy
        have h2t := h2.tail
        simp only [List.tail_cons] at h2t
        rw [List.chain'_cons'] at h2t
        exact h2t.1 y hy rfl
    · rw [fpsAddSpace_skip a b rest hb]
      rw [fpsOpenAux_emit st a _ hstf]
      congr 1
      by_cases hap : a = '('
      · rw [show (decide (a = '(')) = true from by simp [hap]]
        apply fpsOpen_fpsAdd_id (b :: rest) true h1.tail h2.tail
        intro _ y hy
        simp only [List.head?_cons, Option.mem_def, Option.some.injEq] at hy
        subst hy
        rw [List.chain'_cons] at h2
        exact h2.1 hap
      · rw [show (decide (a = '(')) = false from by simp [hap]]
        exact fpsOpen_fpsAdd_id (b :: rest) false h1.tail h2.tail (by simp)


theorem fpsCloseAux_nil (pending : List Char) : fpsCloseAux pending [] = pending := rfl

theorem fpsCloseAux_space (pending : List Char) (c : Char) (cs : List Char)
    (hc : pyIsSpace c = true) :
    fpsCloseAux pending (c :: cs) = fpsCloseAux (pending ++ [c]) cs := by
  simp only [fpsCloseAux]
  rw [if_pos hc]

theorem fpsCloseAux_close (pending : List Char) (cs : List Char) :
    fpsCloseAux pending (')' :: cs) = ')' :: fpsCloseAux [] cs := by
  simp only [fpsCloseAux]
  rw [if_neg (by decide)]
  simp

theorem fpsCloseAux_flush (pending : List Char) (c : Char) (cs : List Char)
    (hc1 : pyIsSpace c = false) (hc2 : ¬c = ')') :
    fpsCloseAux pending (c :: cs) = pending ++ c :: fpsCloseAux [] cs := by
  simp only [fpsCloseAux]
  rw [if_neg (by simp [hc1]), if_neg hc2]

theorem fpsCloseAux_head : ∀ (v pending : List Char) (c : Char),
    c ∈ (fpsCloseAux pending v).head? →
    c = ')' ∨ c ∈ pending.head? ∨ (pending = [] ∧ c ∈ v.head?)
  | [], pending, c => by
    rw [fpsCloseAux_nil]
    intro hc
    exact Or.inr (Or.inl hc)
  | d :: cs, pending, c => by
    intro hc
    by_cases hd : pyIsSpace d = true
    · rw [fpsCloseAux_space pending d cs hd] at hc
      rcases fpsCloseAux_head cs (pending ++ [d]) c hc with h | h | h
      · exact Or.inl h
      · cases pending with
        | nil =>
          simp only [List.nil_append, List.head?_cons] at h
          exact Or.inr (Or.inr ⟨rfl, by simpa using h⟩)
        | cons p ps =>
          simp only [List.cons_append, List.head?_cons] at h
          exact Or.inr (Or.inl (by simpa using h))
      · exact absurd h.1 (by simp)
    · by_cases hdc : d = ')'
      · subst hdc
        rw [fpsCloseAux_close pending cs] at hc
        simp only [List.head?_cons, Option.mem_def, Option.some.injEq] at hc
        exact Or.inl hc.symm
      · rw [fpsCloseAux_flush pending d cs (by simpa using hd) hdc] at hc
        cases pending with
        | nil =>
          simp only [List.nil_append, List.head?_cons, Option.mem_def,
            Option.some.injEq] at hc
          exact Or.inr (Or.inr ⟨rfl, by simp [← hc]⟩)
        | cons p ps =>
          simp only [List.cons_append, List.head?_cons, Option.mem_def,
            Option.some.injEq] at hc
          exact Or.inr (Or.inl (by simp [← hc]))

theorem chain3_all_space (xs : List Char) (h : ∀ c ∈ xs, pyIsSpace c = true) :
    List.Chain' fpsR3 xs := by
  induction xs with
  | nil => simp
  | cons a l ih =>
    rw [List.chain'_cons']
    refine ⟨?_, ih fun c hc => h c (by simp [hc])⟩
    intro y hy hy'
    subst hy'
    have := h ')' (by simp [List.mem_of_mem_head? hy])
    exact absurd this (by decide)

theorem fpsCloseAux_chain3 : ∀ (v pending : List Char),
    (∀ c ∈ pending, pyIsSpace c = true) →
    List.Chain' fpsR3 (fpsCloseAux pending v)
  | [], pending, hp => by
    rw [fpsCloseAux_nil]
    exact chain3_all_space pending hp
  | d :: cs, pending, hp => by
    by_cases hd : pyIsSpace d = true
    · rw [fpsCloseAux_space pending d cs hd]
      exact fpsCloseAux_chain3 cs (pending ++ [d]) (by
        intro c hc
        rcases List.mem_append.mp hc with h | h
        · exact hp c h
        · simp only [List.mem_singleton] at h
          subst h
          exact hd)
    · by_cases hdc : d = ')'
      · subst hdc
        rw [fpsCloseAux_close pending cs]
        rw [List.chain'_cons']
        refine ⟨?_, fpsCloseAux_chain3 cs [] (by simp)⟩
        intro y _ _
        decide
      · rw [fpsCloseAux_flush pending d cs (by simpa using hd) hdc]
        rw [List.chain'_append]
        refine ⟨chain3_all_space pending hp, ?_, ?_⟩
        · rw [List.chain'_cons']
          refine ⟨?_, fpsCloseAux_chain3 cs [] (by simp)⟩
          intro y _ _
          simpa using hd
        · intro x _ y hy
          simp only [List.head?_cons, Option.mem_def, Option.some.injEq] at hy
          subst hy
          intro he
          exact absurd he hdc

theorem fpsCloseAux_chain_pres (R : Char → Char → Prop) (hR : ∀ a, R a ')') :
    ∀ (v pending : List Char), List.Chain' R (pending ++ v) →
    List.Chain' R (fpsCloseAux pending v)
  | [], pending, h => by
    rw [fpsCloseAux_nil]
    simpa using h
  | d :: cs, pending, h => by
    by_cases hd : pyIsSpace d = true
    · rw [fpsCloseAux_space pending d cs hd]
      exact fpsCloseAux_chain_pres R hR cs (pending ++ [d]) (by
        rw [List.append_assoc]
        simpa using h)
    · have hdec := List.chain'_append.mp h
      by_cases hdc : d = ')'
      · subst hdc
        rw [fpsCloseAux_close pending cs]
        rw [List.chain'_cons']
        refine ⟨?_, fpsCloseAux_chain_pres R hR cs [] (by simpa using hdec.2.1.tail)⟩
        intro y hy
        rcases fpsCloseAux_head cs [] y hy with hy' | hy' | hy'
        · subst hy'
          exact hR ')'
        · simp at hy'
        · have hcons := hdec.2.1
          rw [List.chain'_cons'] at hcons
          exact hcons.1 y hy'.2
      · rw [fpsCloseAux_flush pending d cs (by simpa using hd) hdc]
        rw [List.chain'_append]
        refine ⟨hdec.1, ?_, hdec.2.2⟩
        rw [List.chain'_cons']
        refine ⟨?_, fpsCloseAux_chain_pres R hR cs [] (by simpa using hdec.2.1.tail)⟩
        intro y hy
        rcases fpsCloseAux_head cs [] y hy with hy' | hy' | hy'
        · subst hy'
          exact hR d
        · simp at hy'
        · have hcons := hdec.2.1
          rw [List.chain'_cons'] at hcons
          exact hcons.1 y hy'.2

/-- On a string satisfying the pass-three invariant, the deletion of
whitespace runs before `)` finds nothing to delete. -/
theorem fpsCloseAux_id : ∀ (v pending : List Char),
    List.Chain' fpsR3 v → (∀ c ∈ pending, pyIsSpace c = true) →
    (pending ≠ [] → ∀ c ∈ v.head?, ¬c = ')') →
    fpsCloseAux pending v = pending ++ v
  | [], pending, _, _, _ => by
    rw [fpsCloseAux_nil, List.append_nil]
  | d :: cs, pending, hch, hp, hnp => by
    by_cases hd : pyIsSpace d = true
    · rw [fpsCloseAux_space pending d cs hd]
      rw [fpsCloseAux_id cs (pending ++ [d]) hch.tail
        (by
          intro c hc
          rcases List.mem_append.mp hc with h | h
          · exact hp c h
          · simp only [List.mem_singleton] at h
            subst h
            exact hd)
        (by
          intro _ c hc hc'
          subst hc'
          rw [List.chain'_cons'] at hch
          have := hch.1 ')' hc rfl
          simp [hd] at this)]
      rw [← List.append_cons]
    · by_cases hdc : d = ')'
      · subst hdc
        have hpnil : pending = [] := by
          by_cases hpe : pending = []
          · exact hpe
          · exact absurd rfl (hnp hpe ')' (by simp))
        subst hpnil
        rw [fpsCloseAux_close [] cs]
        rw [fpsCloseAux_id cs [] hch.tail (by simp) (by simp)]
        simp
      · rw [fpsCloseAux_flush pending d cs (by simpa using hd) hdc]
        rw [fpsCloseAux_id cs [] hch.tail (by simp) (by simp)]
        simp


/-- C6 (amended), supporting lemma: `fix_parenthesis_spacing` is
idempotent. -/
theorem fixParenthesisSpacing_idem (l : List Char) :
    fixParenthesisSpacing (fixParenthesisSpacing l) = fixParenthesisSpacing l := by
  by_cases hl : l = []
  · subst hl
    rfl
  · have e : fixParenthesisSpacing l =
        fpsBeforeClose (fpsAfterOpen (fpsAddSpace l)) := by
      simp [fixParenthesisSpacing, hl]
    have h1 : List.Chain' fpsR1 (fpsBeforeClose (fpsAfterOpen (fpsAddSpace l))) :=
      fpsCloseAux_chain_pres fpsR1
        (fun a h => absurd h (by decide)) _ []
        (by simpa using fpsOpenAux_chain1 (fpsAddSpace l) false (fpsAddSpace_chain1 l))
    have h2 : List.Chain' fpsR2 (fpsBeforeClose (fpsAfterOpen (fpsAddSpace l))) :=
      fpsCloseAux_chain_pres fpsR2
        (fun a _ => by decide) _ []
        (by simpa using (fpsOpenAux_chain2 (fpsAddSpace l) false).1)
    have h3 : List.Chain' fpsR3 (fpsBeforeClose (fpsAfterOpen (fpsAddSpace l))) :=
      fpsCloseAux_chain3 _ [] (by simp)
    rw [e]
    by_cases ht0 : fpsBeforeClose (fpsAfterOpen (fpsAddSpace l)) = []
    · rw [ht0]
      rfl
    · rw [show fixParenthesisSpacing (fpsBeforeClose (fpsAfterOpen (fpsAddSpace l)))
          = fpsBeforeClose (fpsAfterOpen (fpsAddSpace
              (fpsBeforeClose (fpsAfterOpen (fpsAddSpace l))))) from by
        simp [fixParenthesisSpacing, ht0]]
      rw [show fpsAfterOpen (fpsAddSpace
            (fpsBeforeClose (fpsAfterOpen (fpsAddSpace l))))
          = fpsBeforeClose (fpsAfterOpen (fpsAddSpace l)) from
        fpsOpen_fpsAdd_id _ false h1 h2 (by simp)]
      show fpsCloseAux [] _ = _
      rw [fpsCloseAux_id _ [] h3 (by simp) (by simp)]
      simp

/-- C6 (amended), supporting lemma: the digit transliteration is
idempotent. -/
theorem nepaliToRomanNumerals_idem (l : List Char) :
    nepaliToRomanNumerals (nepaliToRomanNumerals l) = nepaliToRomanNumerals l := by
  rw [nepaliToRomanNumerals_eq_map, nepaliToRomanNumerals_eq_map, List.map_map]
  apply List.map_congr_left
  intro c _
  simp only [Function.comp_apply]
  rw [ntrChar_eq_self _ (ntrChar_not_nep c)]

/-- C6 counterexample: `normalize_whitespace` is not idempotent — on
`'" a"'` the quote strip exposes a leading space that only a second
application removes. -/
theorem normalizeWhitespace_not_idempotent :
    normalizeWhitespace (normalizeWhitespace [quoteD, ' ', 'a', quoteD]) ≠
      normalizeWhitespace [quoteD, ' ', 'a', quoteD] := by decide

/-- C6 (amended): of the four normalizer transforms, digit
transliteration, `normalize_date`, and `fix_parenthesis_spacing` are
idempotent for every input string; `normalize_whitespace` is not (see
`normalizeWhitespace_not_idempotent`: stripping surrounding quotes can
expose end whitespace that only another application trims). -/
theorem normalizer_idempotence :
    (∀ l : List Char,
      nepaliToRomanNumerals (nepaliToRomanNumerals l) = nepaliToRomanNumerals l) ∧
    (∀ l : List Char, normalizeDate (normalizeDate l) = normalizeDate l) ∧
    (∀ l : List Char,
      fixParenthesisSpacing (fixParenthesisSpacing l) = fixParenthesisSpacing l) :=
  ⟨nepaliToRomanNumerals_idem, normalizeDate_idem, fixParenthesisSpacing_idem⟩


/-! ## Checkpoint lemmas for the district-court run -/

theorem mem_markProcessed_self (k : Ckpt) (c d : List Char) :
    (c, d) ∈ markProcessed k c d := by
  unfold markProcessed
  split
  · assumption
  · simp

theorem mem_markProcessed_of_mem (k : Ckpt) (c d : List Char)
    (e : List Char × List Char) (h : e ∈ k) : e ∈ markProcessed k c d := by
  unfold markProcessed
  split
  · exact h
  · simp [h]

theorem parseDailyList_ckpt_self (st : DistrictState) (c dAd dBs : List Char)
    (r : DailyResponse) (now : List Char) :
    (c, dAd) ∈ (parseDailyList st c dAd dBs r now).ckpt := by
  unfold parseDailyList
  split
  · exact mem_markProcessed_self st.ckpt c dAd
  · split
    · exact mem_markProcessed_self st.ckpt c dAd
    · exact mem_markProcessed_self st.ckpt c dAd

theorem parseDailyList_ckpt_mono (st : DistrictState) (c dAd dBs : List Char)
    (r : DailyResponse) (now : List Char) (e : List Char × List Char)
    (h : e ∈ st.ckpt) : e ∈ (parseDailyList st c dAd dBs r now).ckpt := by
  unfold parseDailyList
  split
  · exact mem_markProcessed_of_mem st.ckpt c dAd e h
  · split
    · exact mem_markProcessed_of_mem st.ckpt c dAd e h
    · exact mem_markProcessed_of_mem st.ckpt c dAd e h

theorem runDistrictCourt_cons (d : List Char) (ds : List (List Char))
    (bsOf : List Char → Option (List Char))
    (resp : List Char → List Char → DailyResponse) (now : List Char)
    (st : DistrictState) (c : List Char) :
    runDistrictCourt (d :: ds) bsOf resp now st c =
    runDistrictCourt ds bsOf resp now
      (if (c, d) ∈ st.ckpt then st
       else
         match bsOf d with
         | none => st
         | some bs => parseDailyList st c d bs (resp c d) now) c := rfl

theorem runDistrict_cons (c : List Char) (cs dates : List (List Char))
    (bsOf : List Char → Option (List Char))
    (resp : List Char → List Char → DailyResponse) (now : List Char)
    (st : DistrictState) :
    runDistrict (c :: cs) dates bsOf resp now st =
    runDistrict cs dates bsOf resp now
      (runDistrictCourt dates bsOf resp now st c) := rfl

theorem runDistrictCourt_ckpt_mono (dates : List (List Char))
    (bsOf : List Char → Option (List Char))
    (resp : List Char → List Char → DailyResponse) (now : List Char) :
    ∀ (st : DistrictState) (c : List Char) (e : List Char × List Char),
      e ∈ st.ckpt → e ∈ (runDistrictCourt dates bsOf resp now st c).ckpt := by
  induction dates with
  | nil => intro st c e h; exact h
  | cons d ds ih =>
    intro st c e h
    rw [runDistrictCourt_cons]
    apply ih
    split
    · exact h
    · rcases bsOf d with _ | bs
      · exact h
      · exact parseDailyList_ckpt_mono st c d bs (resp c d) now e h

theorem runDistrictCourt_covers (dates : List (List Char))
    (bsOf : List Char → Option (List Char))
    (resp : List Char → List Char → DailyResponse) (now : List Char) :
    ∀ (st : DistrictState) (c d : List Char), d ∈ dates →
      (bsOf d).isSome = true →
      (c, d) ∈ (runDistrictCourt dates bsOf resp now st c).ckpt := by
  induction dates with
  | nil => intro st c d h; simp at h
  | cons d0 ds ih =>
    intro st c d hd hbs
    rcases List.mem_cons.mp hd with h | h
    · subst h
      rw [runDistrictCourt_cons]
      apply runDistrictCourt_ckpt_mono ds bsOf resp now
      split
      · assumption
      · rcases hb : bsOf d with _ | bs
        · rw [hb] at hbs; simp at hbs
        · exact parseDailyList_ckpt_self st c d bs (resp c d) now
    · exact ih _ c d h hbs

theorem runDistrict_ckpt_mono (courts dates : List (List Char))
    (bsOf : List Char → Option (List Char))
    (resp : List Char → List Char → DailyResponse) (now : List Char) :
    ∀ (st : DistrictState) (e : List Char × List Char),
      e ∈ st.ckpt → e ∈ (runDistrict courts dates bsOf resp now st).ckpt := by
  induction courts with
  | nil => intro st e h; exact h
  | cons c cs ih =>
    intro st e h
    rw [runDistrict_cons]
    exact ih _ e (runDistrictCourt_ckpt_mono dates bsOf resp now st c e h)

theorem runDistrict_covers (courts dates : List (List Char))
    (bsOf : List Char → Option (List Char))
    (resp : List Char → List Char → DailyResponse) (now : List Char) :
    ∀ (st : DistrictState) (c d : List Char), c ∈ courts → d ∈ dates →
      (bsOf d).isSome = true →
      (c, d) ∈ (runDistrict courts dates bsOf resp now st).ckpt := by
  induction courts with
  | nil => intro st c d h; simp at h
  | cons c0 cs ih =>
    intro st c d hc hd hbs
    rcases List.mem_cons.mp hc with h | h
    · subst h
      rw [runDistrict_cons]
      exact runDistrict_ckpt_mono cs dates bsOf resp now _ (c, d)
        (runDistrictCourt_covers dates bsOf resp now st c d hd hbs)
    · exact ih _ c d h hd hbs

theorem runDistrictCourt_id_of_covered (dates : List (List Char))
    (bsOf : List Char → Option (List Char))
    (resp : List Char → List Char → DailyResponse) (now : List Char) :
    ∀ (st : DistrictState) (c : List Char),
      (∀ d ∈ dates, (c, d) ∈ st.ckpt ∨ bsOf d = none) →
      runDistrictCourt dates bsOf resp now st c = st := by
  induction dates with
  | nil => intro st c _; rfl
  | cons d ds ih =>
    intro st c h
    rw [runDistrictCourt_cons]
    have hstep : (if (c, d) ∈ st.ckpt then st
        else match bsOf d with
          | none => st
          | some bs => parseDailyList st c d bs (resp c d) now) = st := by
      rcases h d (by simp) with h1 | h1
      · rw [if_pos h1]
      · split
        · rfl
        · rw [h1]
    rw [hstep]
    exact ih st c fun d2 hd2 => h d2 (by simp [hd2])

theorem runDistrict_id_of_covered (courts dates : List (List Char))
    (bsOf : List Char → Option (List Char))
    (resp : List Char → List Char → DailyResponse) (now : List Char) :
    ∀ st : DistrictState,
      (∀ c ∈ courts, ∀ d ∈ dates, (c, d) ∈ st.ckpt ∨ bsOf d = none) →
      runDistrict courts dates bsOf resp now st = st := by
  induction courts with
  | nil => intro st _; rfl
  | cons c cs ih =>
    intro st h
    rw [runDistrict_cons]
    rw [runDistrictCourt_id_of_covered dates bsOf resp now st c
      fun d hd => h c (by simp) d hd]
    exact ih st fun c2 hc2 d hd => h c2 (by simp [hc2]) d hd

/-- C1: idempotent resume of the district harvest.  (1) `start_requests`
emits no request for a (court, date) unit already in the loaded
checkpoint — the skip check runs before the request is built.  (2)
`save_case` writes nothing when the output file for the (case number,
hearing date) already exists.  (3) Consequently a second run over the
same (court, date) grid against unchanged source data — even with a
different clock, which would change every `scraped_at` field were any
file rewritten — adds no hearing record and leaves the store
byte-identical, because every unit a run can fetch ends checkpointed. -/
theorem district_idempotent_resume :
    (∀ (courts dates : List (List Char)) bsOf (k : Ckpt) (c d : List Char),
      (c, d) ∈ k → (c, d) ∉ emittedRequests courts dates bsOf k) ∧
    (∀ (fs : FileStore) (codeName : List Char) (cd : CaseRecord)
      (dateBs now : List Char),
      fsLookup fs (districtCasePath codeName cd dateBs) ≠ none →
      saveCase fs codeName cd dateBs now = fs) ∧
    (∀ (courts dates : List (List Char)) bsOf resp (now₁ now₂ : List Char)
      (st : DistrictState),
      runDistrict courts dates bsOf resp now₂
        (runDistrict courts dates bsOf resp now₁ st) =
      runDistrict courts dates bsOf resp now₁ st) := by
  refine ⟨?_, ?_, ?_⟩
  · intro courts dates bsOf k c d hk hmem
    simp only [emittedRequests, List.mem_flatMap, List.mem_map,
      List.mem_filter] at hmem
    obtain ⟨c2, _, d2, ⟨_, hcond⟩, heq⟩ := hmem
    obtain ⟨hc2, hd2⟩ := Prod.mk.injEq .. ▸ heq
    subst hc2
    subst hd2
    simp only [Bool.and_eq_true, Bool.not_eq_true', decide_eq_false_iff_not] at hcond
    exact hcond.1 hk
  · intro fs codeName cd dateBs now h
    unfold saveCase
    rw [if_pos h]
  · intro courts dates bsOf resp now₁ now₂ st
    apply runDistrict_id_of_covered
    intro c hc d hd
    rcases hbs : bsOf d with _ | bs
    · exact Or.inr rfl
    · exact Or.inl (runDistrict_covers courts dates bsOf resp now₁ st c d hc hd
        (by simp [hbs]))

theorem district_idempotent_resume_witness :
    ((("ktm".data, "2025-01-01".data) ∈
        ([("ktm".data, "2025-01-01".data)] : Ckpt)) ∧
      ("ktm".data, "2025-01-01".data) ∉
        emittedRequests ["ktm".data] ["2025-01-01".data]
          (fun d => some d) [("ktm".data, "2025-01-01".data)]) ∧
    (fsLookup [(districtCasePath "ktm".data
        ⟨"81-CR-1".data, "2081-01-01".data, "p".data⟩ "2081-09-17".data,
        "old".data)]
      (districtCasePath "ktm".data
        ⟨"81-CR-1".data, "2081-01-01".data, "p".data⟩ "2081-09-17".data) ≠
        none ∧
      saveCase [(districtCasePath "ktm".data
          ⟨"81-CR-1".data, "2081-01-01".data, "p".data⟩ "2081-09-17".data,
          "old".data)]
        "ktm".data ⟨"81-CR-1".data, "2081-01-01".data, "p".data⟩
        "2081-09-17".data "now2".data =
      [(districtCasePath "ktm".data
          ⟨"81-CR-1".data, "2081-01-01".data, "p".data⟩ "2081-09-17".data,
          "old".data)]) :=
  ⟨⟨by decide,
    district_idempotent_resume.1 ["ktm".data] ["2025-01-01".data]
      (fun d => some d) [("ktm".data, "2025-01-01".data)] "ktm".data
      "2025-01-01".data (by decide)⟩,
   by decide,
   district_idempotent_resume.2.1 _ "ktm".data
     ⟨"81-CR-1".data, "2081-01-01".data, "p".data⟩ "2081-09-17".data
     "now2".data (by decide)⟩


/-! ## Checkpoint policy (supreme and district), fan-out, enrichment -/

theorem mem_supSaveCheckpoint_self (k : List (List Char)) (d : List Char) :
    d ∈ supSaveCheckpoint k d := by
  unfold supSaveCheckpoint
  split
  · assumption
  · simp

theorem supremeParseCases_ckpt (st : SupremeState) (dAd dBs : List Char)
    (r : SupremeResponse) (now : List Char)
    (h : (r.rejectedBanner || r.supportIdBanner) = false) :
    (supremeParseCases st dAd dBs r now).ckpt = supSaveCheckpoint st.ckpt dAd := by
  unfold supremeParseCases
  rw [if_neg (by simp [h])]
  rcases r.caseTable with _ | rows
  · rfl
  · dsimp only
    by_cases hr : rows = []
    · rw [if_pos hr]
    · rw [if_neg hr]

theorem parseBenchList_of_banner_false (r : BenchListResponse)
    (h : (r.rejectedBanner || r.supportIdBanner) = false) :
    parseBenchList r =
      if hcBenches r = [] then [HCAction.ckptMark]
      else (hcBenches r).map HCAction.stage2Request ++ [HCAction.ckptMark] := by
  unfold parseBenchList hcBenches
  rw [if_neg (by simp [h])]
  rcases r.benchTable with _ | rows
  · simp
  · rfl

/-- C2 counterexample: the district spider performs no access-block
check.  A response whose raw text matches the WAF banner but contains
neither the absence panel nor any case table falls into the
missing-table branch of `parse_daily_list`, and the date IS recorded as
done — contradicting the claim that a banner-matching response leaves
the unit absent from the checkpoint set on every spider. -/
theorem district_banner_checkpoints :
    ("ktm".data, "2025-01-01".data) ∈
      (parseDailyList ⟨[], []⟩ "ktm".data "2025-01-01".data
        "2081-09-17".data ⟨false, true, []⟩ "now".data).ckpt := by decide

/-- C2 (amended): in the supreme-court spider a banner-matching response
returns without checkpointing (the unit stays absent and is re-attempted
later), and every other outcome — no table found, zero rows, or N
extracted rows — ends with the date checkpointed.  The district spider
has no banner branch: every parsed response, the absence panel, the
missing-table case, banner pages included, ends checkpointed. -/
theorem checkpoint_policy_per_unit :
    (∀ (st : SupremeState) (dAd dBs : List Char) (r : SupremeResponse)
      (now : List Char), (r.rejectedBanner || r.supportIdBanner) = true →
      supremeParseCases st dAd dBs r now = st) ∧
    (∀ (st : SupremeState) (dAd dBs : List Char) (r : SupremeResponse)
      (now : List Char), (r.rejectedBanner || r.supportIdBanner) = false →
      dAd ∈ (supremeParseCases st dAd dBs r now).ckpt) ∧
    (∀ (st : DistrictState) (c dAd dBs : List Char) (r : DailyResponse)
      (now : List Char), (c, dAd) ∈ (parseDailyList st c dAd dBs r now).ckpt) := by
  refine ⟨?_, ?_, ?_⟩
  · intro st dAd dBs r now h
    unfold supremeParseCases
    rw [if_pos h]
  · intro st dAd dBs r now h
    rw [supremeParseCases_ckpt st dAd dBs r now h]
    exact mem_supSaveCheckpoint_self st.ckpt dAd
  · intro st c dAd dBs r now
    exact parseDailyList_ckpt_self st c dAd dBs r now

theorem checkpoint_policy_witness :
    ((⟨true, false, none⟩ : SupremeResponse).rejectedBanner ||
      (⟨true, false, none⟩ : SupremeResponse).supportIdBanner) = true ∧
    supremeParseCases ⟨[], []⟩ "2025-01-01".data "2081-09-17".data
      ⟨true, false, none⟩ "now".data = (⟨[], []⟩ : SupremeState) ∧
    "2025-01-02".data ∈
      (supremeParseCases ⟨[], []⟩ "2025-01-02".data "2081-09-18".data
        ⟨false, false, some [some ⟨"079-RF-0005".data, "2079-01-01".data,
          "p".data⟩]⟩ "now".data).ckpt :=
  ⟨by decide,
   checkpoint_policy_per_unit.1 ⟨[], []⟩ "2025-01-01".data "2081-09-17".data
     ⟨true, false, none⟩ "now".data (by decide),
   checkpoint_policy_per_unit.2.1 ⟨[], []⟩ "2025-01-02".data
     "2081-09-18".data ⟨false, false, some [some ⟨"079-RF-0005".data,
       "2079-01-01".data, "p".data⟩]⟩ "now".data (by decide)⟩

/-- C3 counterexample: on a stage-1 response with one bench, the unit
trace has the checkpoint write at index 0 and the bench's stage-2
completion at index 1 — the date is recorded as processed while the
stage-2 response is still outstanding, refuting "marked done only after
all fan-out stage-2 fetches complete". -/
theorem hc_ckpt_before_stage2 :
    hcUnitTrace "rajbirajhc".data "2025-01-01".data
        ⟨false, false, some [some ⟨"260823".data, "2".data, "j".data⟩]⟩ =
      [HCEvent.ckptWritten "rajbirajhc".data "2025-01-01".data,
       HCEvent.stage2ResponseProcessed "rajbirajhc".data "2025-01-01".data
         ⟨"260823".data, "2".data, "j".data⟩] ∧
    ¬ckptOnlyAfterAllStage2
        (hcUnitTrace "rajbirajhc".data "2025-01-01".data
          ⟨false, false, some [some ⟨"260823".data, "2".data, "j".data⟩]⟩)
        "rajbirajhc".data "2025-01-01".data := by
  constructor
  · decide
  · intro h
    exact absurd (h 0 1 (by decide)
      ⟨⟨"260823".data, "2".data, "j".data⟩, by decide⟩) (by decide)

/-- C3 (amended): `parse_bench_list` yields all stage-2 bench requests
and then writes the checkpoint as its final action, so the date is
recorded as processed after every stage-2 request has been issued but
before any stage-2 response arrives; a banner-matching stage-1 response
emits nothing, and a missing bench table or a bench list with no
matching rows still checkpoints. -/
theorem hc_checkpoint_at_stage1 :
    (∀ (court dAd : List Char) (r : BenchListResponse),
      (r.rejectedBanner || r.supportIdBanner) = true →
      parseBenchList r = [] ∧ hcUnitTrace court dAd r = []) ∧
    (∀ (court dAd : List Char) (r : BenchListResponse),
      (r.rejectedBanner || r.supportIdBanner) = false → hcBenches r = [] →
      hcUnitTrace court dAd r = [HCEvent.ckptWritten court dAd]) ∧
    (∀ (court dAd : List Char) (r : BenchListResponse),
      (r.rejectedBanner || r.supportIdBanner) = false → hcBenches r ≠ [] →
      parseBenchList r =
        (hcBenches r).map HCAction.stage2Request ++ [HCAction.ckptMark] ∧
      hcUnitTrace court dAd r =
        HCEvent.ckptWritten court dAd ::
          (hcBenches r).map (HCEvent.stage2ResponseProcessed court dAd)) := by
  refine ⟨?_, ?_, ?_⟩
  · intro court dAd r h
    have hp : parseBenchList r = [] := by
      unfold parseBenchList
      rw [if_pos h]
    exact ⟨hp, by simp [hcUnitTrace, hp, hcCallbackEvents, hcPendingRequests]⟩
  · intro court dAd r h hb
    have hp : parseBenchList r = [HCAction.ckptMark] := by
      rw [parseBenchList_of_banner_false r h, if_pos hb]
    simp [hcUnitTrace, hp, hcCallbackEvents, hcPendingRequests]
  · intro court dAd r h hb
    have hp : parseBenchList r =
        (hcBenches r).map HCAction.stage2Request ++ [HCAction.ckptMark] := by
      rw [parseBenchList_of_banner_false r h, if_neg hb]
    refine ⟨hp, ?_⟩
    simp only [hcUnitTrace, hp, hcCallbackEvents, hcPendingRequests,
      List.filterMap_append, List.filterMap_map]
    simp [Function.comp_def]

theorem hc_checkpoint_witness :
    ((⟨false, false, some [some ⟨"260823".data, "2".data, "j".data⟩,
        none]⟩ : BenchListResponse).rejectedBanner ||
      (⟨false, false, some [some ⟨"260823".data, "2".data, "j".data⟩,
        none]⟩ : BenchListResponse).supportIdBanner) = false ∧
    hcUnitTrace "rajbirajhc".data "2025-01-02".data
        ⟨false, false, some [some ⟨"260823".data, "2".data, "j".data⟩, none]⟩ =
      HCEvent.ckptWritten "rajbirajhc".data "2025-01-02".data ::
        (hcBenches ⟨false, false, some [some ⟨"260823".data, "2".data,
          "j".data⟩, none]⟩).map
          (HCEvent.stage2ResponseProcessed "rajbirajhc".data
            "2025-01-02".data) :=
  ⟨by decide,
   (hc_checkpoint_at_stage1.2.2 "rajbirajhc".data "2025-01-02".data
     ⟨false, false, some [some ⟨"260823".data, "2".data, "j".data⟩, none]⟩
     (by decide) (by decide)).2⟩

/-- Shared persistence fact: `_save_enrichment` deletes all entity rows
of the (case number, COURT_ID) key and inserts exactly the newly
extracted ones, in one transaction, whenever the case row exists. -/
theorem entitiesFor_saveEnrichment (db : EnrichDB) (courtId cn : List Char)
    (enrich extra : List (List Char × List Char)) (ents : ExtractedEntities)
    (now : List Char) (h : findCase db cn courtId ≠ none) :
    entitiesFor (saveEnrichment db courtId cn enrich extra ents now) cn courtId =
      newEntityRows cn courtId ents now := by
  unfold saveEnrichment
  rcases hf : findCase db cn courtId with _ | c
  · exact absurd hf h
  · unfold entitiesFor
    simp only [List.filter_append]
    have h1 : (db.entities.filter fun e =>
        !decide (e.caseNumber = cn ∧ e.courtId = courtId)).filter
        (fun e => decide (e.caseNumber = cn ∧ e.courtId = courtId)) = [] := by
      rw [List.filter_eq_nil_iff]
      intro e he
      have := (List.mem_filter.mp he).2
      simp only [Bool.not_eq_true', decide_eq_false_iff_not] at this
      simpa using this
    have h2 : (newEntityRows cn courtId ents now).filter
        (fun e => decide (e.caseNumber = cn ∧ e.courtId = courtId)) =
        newEntityRows cn courtId ents now := by
      rw [List.filter_eq_self]
      intro e he
      unfold newEntityRows at he
      rcases List.mem_append.mp he with h | h <;>
        obtain ⟨x, _, rfl⟩ := List.mem_map.mp h <;> simp [mkEntity]
    rw [h1, h2, List.nil_append]

/-- C4: after a successful enrichment extracting M parties, exactly M
CaseEntity rows exist for the (case number, COURT_ID) key, regardless of
how many existed before: the save deletes all prior entities of the key
and inserts only the new ones inside the same transaction. -/
theorem enrichment_replacement (db : EnrichDB) (courtId cn : List Char)
    (enrich extra : List (List Char × List Char)) (ents : ExtractedEntities)
    (now : List Char) (h : findCase db cn courtId ≠ none) :
    entitiesFor (saveEnrichment db courtId cn enrich extra ents now) cn courtId =
      newEntityRows cn courtId ents now ∧
    (entitiesFor (saveEnrichment db courtId cn enrich extra ents now) cn
        courtId).length =
      ents.plaintiffs.length + ents.defendants.length := by
  refine ⟨entitiesFor_saveEnrichment db courtId cn enrich extra ents now h, ?_⟩
  rw [entitiesFor_saveEnrichment db courtId cn enrich extra ents now h]
  simp [newEntityRows]

theorem enrichment_replacement_witness :
    (findCase
        ⟨[⟨"c1".data, "special".data, some "pending".data, [], [], none, none⟩],
         [mkEntity "c1".data "special".data "plaintiff".data
            ⟨"old1".data, none⟩ "t0".data,
          mkEntity "c1".data "special".data "defendant".data
            ⟨"old2".data, none⟩ "t0".data]⟩
        "c1".data "special".data ≠ none) ∧
    (entitiesFor (saveEnrichment
        ⟨[⟨"c1".data, "special".data, some "pending".data, [], [], none, none⟩],
         [mkEntity "c1".data "special".data "plaintiff".data
            ⟨"old1".data, none⟩ "t0".data,
          mkEntity "c1".data "special".data "defendant".data
            ⟨"old2".data, none⟩ "t0".data]⟩
        "special".data "c1".data [] []
        ⟨[⟨"newP".data, none⟩], []⟩ "t1".data) "c1".data
      "special".data).length = 1 + 0 :=
  ⟨by decide,
   (enrichment_replacement
     ⟨[⟨"c1".data, "special".data, some "pending".data, [], [], none, none⟩],
      [mkEntity "c1".data "special".data "plaintiff".data
         ⟨"old1".data, none⟩ "t0".data,
       mkEntity "c1".data "special".data "defendant".data
         ⟨"old2".data, none⟩ "t0".data]⟩
     "special".data "c1".data [] [] ⟨[⟨"newP".data, none⟩], []⟩ "t1".data
     (by decide)).2⟩

/-- C5 counterexample: the save transaction consults no status.  On a
store whose case is already `enriched` (as a concurrent worker would
leave it between this worker's check transaction and its write
transaction), `_save_enrichment` still rewrites the case and replaces
its entities — the write is not skipped, so the claim that the status
re-check happens inside the same transaction as the write and leaves
the store unchanged is false. -/
theorem enrichment_write_ignores_status :
    saveEnrichment
        ⟨[⟨"c1".data, "special".data, some "enriched".data, [], [], none, none⟩],
         [mkEntity "c1".data "special".data "plaintiff".data
            ⟨"B-party".data, none⟩ "t0".data]⟩
        "special".data "c1".data [] [] ⟨[⟨"A-party".data, none⟩], []⟩
        "t1".data ≠
      ⟨[⟨"c1".data, "special".data, some "enriched".data, [], [], none, none⟩],
       [mkEntity "c1".data "special".data "plaintiff".data
          ⟨"B-party".data, none⟩ "t0".data]⟩ := by decide

/-- C5 (amended): the enrichment flow checks the case's status in its
own transaction immediately before the write: if the case is already
`enriched` at check time, the flow skips the write and the store is
unchanged.  The write transaction itself performs no status re-check —
it overwrites the case and replaces its entities whatever the current
status, so an enrichment committed by a concurrent worker between the
check and the write is clobbered rather than preserved. -/
theorem enrichment_check_then_write :
    (∀ (db : EnrichDB) (courtId cn : List Char) (mt : Bool)
      (enrich extra : List (List Char × List Char)) (ents : ExtractedEntities)
      (now : List Char) (c : CaseRow),
      findCase db cn courtId = some c → c.status = some "enriched".data →
      parseCaseDetailFlow db courtId cn mt enrich extra ents now = db) ∧
    (∀ (db : EnrichDB) (courtId cn : List Char)
      (enrich extra : List (List Char × List Char)) (ents : ExtractedEntities)
      (now : List Char) (c : CaseRow),
      findCase db cn courtId = some c →
      entitiesFor (saveEnrichment db courtId cn enrich extra ents now) cn
        courtId = newEntityRows cn courtId ents now) := by
  constructor
  · intro db courtId cn mt enrich extra ents now c hf hs
    unfold parseCaseDetailFlow
    rcases mt with _ | _
    · rfl
    · have hc : checkShouldWrite db courtId cn = false := by
        unfold checkShouldWrite
        rw [hf]
        simp [hs]
      rw [if_neg (by simp)]
      rw [if_pos (by simp [hc])]
  · intro db courtId cn enrich extra ents now c hf
    exact entitiesFor_saveEnrichment db courtId cn enrich extra ents now
      (by simp [hf])

theorem enrichment_check_then_write_witness :
    (findCase
        ⟨[⟨"c2".data, "special".data, some "enriched".data, [], [], none, none⟩],
         []⟩ "c2".data "special".data =
      some ⟨"c2".data, "special".data, some "enriched".data, [], [], none, none⟩) ∧
    parseCaseDetailFlow
        ⟨[⟨"c2".data, "special".data, some "enriched".data, [], [], none, none⟩],
         []⟩
        "special".data "c2".data true [] [] ⟨[⟨"x".data, none⟩], []⟩
        "t2".data =
      ⟨[⟨"c2".data, "special".data, some "enriched".data, [], [], none, none⟩],
       []⟩ :=
  ⟨by decide,
   enrichment_check_then_write.1
     ⟨[⟨"c2".data, "special".data, some "enriched".data, [], [], none, none⟩], []⟩
     "special".data "c2".data true [] [] ⟨[⟨"x".data, none⟩], []⟩ "t2".data
     ⟨"c2".data, "special".data, some "enriched".data, [], [], none, none⟩
     (by decide) (by decide)⟩

end Ngm
